import Mathlib

/-!
# Verification of the VIT.CampusNavigator routing core

Shallow embedding of the repository's routing core and proofs about it:

* the unweighted BFS solver `findPath` over the SVG block graph and its
  static data `campusGraph` (navigation/data scripts);
* the weighted Dijkstra solver `findShortestPath` with
  `buildAdjacencyList` (`src/lib/pathfinding.ts`);
* the nearest-node linear scan `findNearestNode`;
* the navigation handler's same-building short-circuit (`handleNavigate`
  of the Index component).

JS numbers are modelled as rationals (`ℚ`), `Infinity` as `⊤ : WithTop ℚ`,
JS `Map`s and plain objects as insertion-ordered association lists, and the
two `while` loops as fuel-indexed recursions whose fuel provably exceeds the
number of iterations the loops can perform (each BFS iteration consumes a
queue entry and entries are enqueued only for freshly visited ids; each
Dijkstra iteration consumes a queue entry and pushes happen only while
processing an unvisited node).
-/

namespace CampusNav

/-- JS `Map.get` / object property lookup on an association list
(keys are unique in a JS map, so the first match is the value). -/
def mapGet {κ α : Type} [DecidableEq κ] : List (κ × α) → κ → Option α
  | [], _ => none
  | (k, v) :: rest, k' => if k = k' then some v else mapGet rest k'

/-- JS `Map.set` / object property assignment: overwrite the value at an
existing key in place, otherwise append the new key at the end. -/
def mapSet {κ α : Type} [DecidableEq κ] : List (κ × α) → κ → α → List (κ × α)
  | [], k, v => [(k, v)]
  | (k0, v0) :: rest, k, v =>
    if k0 = k then (k, v) :: rest else (k0, v0) :: mapSet rest k v

/-! ## The BFS solver over the SVG block graph (`findPath`) -/

/-- The block connectivity graph: block SVG id ↦ (neighbour block id ↦ ordered
list of road SVG ids between the two blocks). -/
abbrev BFSGraph := List (String × List (String × List String))

/-- One BFS queue entry `[current_node_id, [road_segments], [nodes_visited]]`. -/
structure BFSEntry where
  node : String
  roads : List String
  nodes : List String
deriving DecidableEq, Repr

/-- The value of a successful `findPath`: `{ roads, nodes }`. -/
structure BFSResult where
  roads : List String
  nodes : List String
deriving DecidableEq, Repr

/-- The neighbour loop of the BFS: every neighbour not yet visited is marked
visited and enqueued with the road path and node path extended
(`newPath = [...path, ...roads]`, `newVisitedNodes = [...visitedNodes, n]`). -/
def pushNeighbors (path nodesAcc : List String) :
    List (String × List String) → List BFSEntry → List String →
    List BFSEntry × List String
  | [], acc, visited => (acc, visited)
  | nb :: rest, acc, visited =>
    if nb.1 ∈ visited then pushNeighbors path nodesAcc rest acc visited
    else
      pushNeighbors path nodesAcc rest
        (acc ++ [⟨nb.1, path ++ nb.2, nodesAcc ++ [nb.1]⟩])
        (visited ++ [nb.1])

/-- The BFS `while (queue.length > 0)` loop.  `fuel` bounds the number of
iterations; every iteration pops one entry, and entries are only ever pushed
for ids freshly added to `visited`, so `bfsIds g |>.length + 2` iterations
always suffice and the fuel-out branch is never taken on the provided fuel. -/
def bfsLoop (g : BFSGraph) (endSvgId : String) :
    Nat → List BFSEntry → List String → Option BFSResult
  | 0, _, _ => none
  | _ + 1, [], _ => none
  | fuel + 1, e :: rest, visited =>
    if e.node = endSvgId then some ⟨e.roads, e.nodes⟩
    else
      match mapGet g e.node with
      | none => bfsLoop g endSvgId fuel rest visited
      | some neighbors =>
        let st := pushNeighbors e.roads e.nodes neighbors [] visited
        bfsLoop g endSvgId fuel (rest ++ st.1) st.2

/-- Every id mentioned by the block graph (keys and neighbour ids). -/
def bfsIds (g : BFSGraph) : List String :=
  g.foldl (fun acc e => acc ++ [e.1] ++ e.2.map Prod.fst) []

/-- `findPath(startSvgId, endSvgId)` of the navigation script.  The second
component records the `console.warn` messages the call emits: the only one is
the node-not-found warning of the missing-start check.  The returned value
(`Option BFSResult`) is `null`/`none` both on that check and when the queue
runs dry with the destination unreached. -/
def findPath (g : BFSGraph) (startSvgId endSvgId : String) :
    Option BFSResult × List String :=
  if startSvgId = endSvgId then (some ⟨[], [startSvgId]⟩, [])
  else if (mapGet g startSvgId).isNone then
    (none, ["Node not in graph: " ++ startSvgId])
  else
    (bfsLoop g endSvgId ((bfsIds g).length + 2)
      [⟨startSvgId, [], [startSvgId]⟩] [startSvgId], [])

/-- One directed hop of the block graph. -/
def bfsAdj (g : BFSGraph) (a b : String) : Prop :=
  ∃ ns roads, mapGet g a = some ns ∧ (b, roads) ∈ ns

/-- Connectivity in the block graph: the reflexive-transitive closure of
single hops. -/
def bfsReachable (g : BFSGraph) : String → String → Prop :=
  Relation.ReflTransGen (bfsAdj g)

/-- A hop path (over an arbitrary hop relation `r`) whose nodes after the
first all avoid the set `S` (the completeness invariants talk about paths
that avoid the visited set). -/
inductive AvoidReach (r : String → String → Prop) (S : List String) :
    String → String → Prop where
  | refl (a : String) : AvoidReach r S a a
  | head (a b c : String) : r a b → b ∉ S → AvoidReach r S b c →
      AvoidReach r S a c

/-- The frontier invariant of the BFS: every visited node either still has a
queue entry or has all its neighbours visited. -/
def BfsFrontierInv (g : BFSGraph) (q : List BFSEntry) (visited : List String) :
    Prop :=
  ∀ u ∈ visited, (∃ e ∈ q, e.node = u) ∨ ∀ v, bfsAdj g u v → v ∈ visited

/-- How many ids of the block graph are not yet visited; each BFS iteration
strictly decreases `queue length + bfsUnseen`, which bounds the iteration
count. -/
def bfsUnseen (g : BFSGraph) (visited : List String) : Nat :=
  ((bfsIds g).toFinset \ visited.toFinset).card

/-- The static block connectivity graph of the data script (`campusGraph`),
entry for entry in declaration order. -/
def campusGraph : BFSGraph :=
  [ ("block_main_gate",
      [("block_admin", ["road_gate_to_admin"])]),
    ("block_admin",
      [("block_main_gate", ["road_gate_to_admin"]),
       ("block_library", ["road_admin_to_library"]),
       ("block_guest_house", ["road_to_guest_house"])]),
    ("block_guest_house",
      [("block_admin", ["road_to_guest_house"])]),
    ("block_library",
      [("block_admin", ["road_admin_to_library"]),
       ("block_gazebo", ["road_library_to_gazebo"])]),
    ("block_gazebo",
      [("block_library", ["road_library_to_gazebo"]),
       ("block_ab3", ["road_gazebo_to_ab3"])]),
    ("block_ab3",
      [("block_gazebo", ["road_gazebo_to_ab3"]),
       ("block_north_square", ["road_ab3_curve"])]),
    ("block_north_square",
      [("block_ab3", ["road_ab3_curve"]),
       ("block_ab1", ["road_ab3_to_north_square", "road_aavin_to_ab2"]),
       ("block_health_centre", ["road_health_to_bblock"]),
       ("block_e_hostel", ["road_aavin"]),
       ("block_dominos", ["road_aavin"]),
       ("block_vmart", ["road_aavin_to_ab2"]),
       ("block_sigma", ["road_aavin_to_ab2"])]),
    ("block_ab1",
      [("block_north_square", ["road_aavin_to_ab2", "road_ab3_to_north_square"]),
       ("block_dominos", ["road_aavin_to_ab2", "road_aavin"]),
       ("block_ab2_north", ["road_ab2_connector_north"])]),
    ("block_dominos",
      [("block_north_square", ["road_aavin"]),
       ("block_ab1", ["road_aavin", "road_aavin_to_ab2"]),
       ("block_e_hostel", ["road_aavin", "road_gazebo_to_ab5"]),
       ("block_health_centre", ["road_aavin", "road_health_to_bblock"])]),
    ("block_e_hostel",
      [("block_dominos", ["road_gazebo_to_ab5", "road_aavin"]),
       ("block_north_square", ["road_aavin", "road_ab3_to_north_square"])]),
    ("block_ab5",
      [("block_health_centre", ["road_health_to_bblock"])]),
    ("block_health_centre",
      [("block_north_square", ["road_health_to_bblock"]),
       ("block_dominos", ["road_health_to_bblock", "road_aavin"]),
       ("block_b_hostel", ["road_central_junction", "road_health_to_bblock"]),
       ("block_ab5", ["road_health_to_bblock"])]),
    ("block_ab2_north",
      [("block_ab1", ["road_ab2_connector_north"]),
       ("block_ab2_south", ["road_bblock_to_cblock"])]),
    ("block_ab2_south",
      [("block_ab2_north", ["road_bblock_to_cblock"]),
       ("block_e_hostel", ["road_to_ab5"])]),
    ("block_b_hostel",
      [("block_health_centre", ["road_central_junction"])]),
    ("block_c_hostel",
      [("block_health_centre", ["road_central_junction"])]),
    ("block_d1_hostel",
      [("block_health_centre", ["road_central_junction"])]),
    ("block_d2_hostel",
      [("block_health_centre", ["road_central_junction"])]),
    ("block_vmart",
      [("block_north_square", ["road_aavin_to_ab2"])]),
    ("block_sigma",
      [("block_north_square", ["road_aavin_to_ab2"])]) ]

/-- The forward `predefinedRoutes` table of the data script, route for route
in declaration order.  JS keys each route by the string `from + "->" + to`
and recovers the pair with `key.split("->")`; no id contains the arrow, so
the `(from, to)` pair encoding used here is in bijection with the JS keys. -/
def predefinedRoutes : List ((String × String) × List String) :=
  [ (("main_gate", "admin"), ["road_gate_to_admin"]),
    (("main_gate", "library"), ["road_gate_to_admin", "road_admin_to_library"]),
    (("main_gate", "gazebo"),
      ["road_gate_to_admin", "road_admin_to_library", "road_library_to_gazebo"]),
    (("main_gate", "ab3"),
      ["road_gate_to_admin", "road_admin_to_library", "road_library_to_gazebo",
       "road_gazebo_to_ab3"]),
    (("main_gate", "guest_house"), ["road_gate_to_admin", "road_to_guest_house"]),
    (("library", "gazebo"), ["road_library_to_gazebo"]),
    (("library", "ab3"), ["road_library_to_gazebo", "road_gazebo_to_ab3"]),
    (("library", "north_square"),
      ["road_library_to_gazebo", "road_gazebo_to_ab3", "road_ab3_curve"]),
    (("gazebo", "ab3"), ["road_gazebo_to_ab3"]),
    (("gazebo", "north_square"), ["road_gazebo_to_ab3", "road_ab3_curve"]),
    (("ab3", "north_square"), ["road_ab3_curve"]),
    (("ab3", "ab1"), ["road_ab3_to_north_square", "road_to_ab1"]),
    (("ab3", "ab5"), ["road_ab3_to_north_square", "road_to_ab5"]),
    (("ab1", "ab2_north"), ["road_to_ab1", "road_ab2_connector_north"]),
    (("ab1", "ab2_south"),
      ["road_to_ab1", "road_ab2_connector_north", "road_ab2_connector_south"]),
    (("ab1", "ab5"), ["road_to_ab1", "road_to_ab5"]),
    (("north_square", "ab1"), ["road_ab3_to_north_square", "road_to_ab1"]),
    (("north_square", "ab5"), ["road_ab3_to_north_square", "road_to_ab5"]),
    (("north_square", "e_hostel"), ["road_east_diagonal"]),
    (("north_square", "health_centre"), ["road_to_health_centre"]),
    (("ab2_north", "ab5"), ["road_ab2_connector_south", "road_to_ab5"]),
    (("north_square", "b_hostel"),
      ["road_to_health_centre", "road_central_junction"]),
    (("north_square", "c_hostel"),
      ["road_to_health_centre", "road_central_junction"]),
    (("main_gate", "ab1"),
      ["road_gate_to_admin", "road_admin_to_library", "road_library_to_gazebo",
       "road_gazebo_to_ab3", "road_ab3_curve", "road_ab3_to_north_square",
       "road_to_ab1"]),
    (("main_gate", "health_centre"),
      ["road_entrance_to_library", "road_library_junction_east",
       "road_central_junction", "road_to_health_centre"]) ]

/-- `generateReverseRoutes()`: for every route whose swapped key is absent
from the original table, record the reversed road list (roads are the same,
just traversed in the opposite direction), then merge the generated entries
into the table (`Object.assign`). -/
def generateReverseRoutes (routes : List ((String × String) × List String)) :
    List ((String × String) × List String) :=
  let reverseRoutes := routes.foldl
    (fun acc kr =>
      if (mapGet routes (kr.1.2, kr.1.1)).isSome then acc
      else mapSet acc (kr.1.2, kr.1.1) kr.2.reverse)
    []
  reverseRoutes.foldl (fun acc kr => mapSet acc kr.1 kr.2) routes

/-- The routes of a table whose opposite direction is absent or does not
carry the exact reversed segment list. -/
def routeReverseViolations (routes : List ((String × String) × List String)) :
    List (String × String) :=
  routes.filterMap (fun kr =>
    match mapGet routes (kr.1.2, kr.1.1) with
    | some l => if l = kr.2.reverse then none else some kr.1
    | none => some kr.1)

/-- The segment list carried by the directed edge `a → b`, when present. -/
def edgeSegments (g : BFSGraph) (a b : String) : Option (List String) :=
  match mapGet g a with
  | some ns => mapGet ns b
  | none => none

/-- The directed edges of a block graph whose opposite direction does not
carry the exact reversed segment list (missing reverses included). -/
def reverseViolations (g : BFSGraph) : List (String × String) :=
  g.foldl
    (fun acc e =>
      acc ++ e.2.filterMap (fun nb =>
        if edgeSegments g nb.1 e.1 = some nb.2.reverse then none
        else some (e.1, nb.1)))
    []

/-! ## The Dijkstra solver (`src/lib/pathfinding.ts`) -/

/-- `GraphNode` of pathfinding.ts (the fields the solver and the navigation
handler read; coordinates are planar x/y). -/
structure GraphNode where
  id : String
  name : String
  x : ℚ
  y : ℚ
  blockId : Option String := none
  floor : Option String := none
deriving DecidableEq, Repr

/-- `GraphEdge` of pathfinding.ts.  `from` is reserved in Lean, hence
`fromId`/`toId`. -/
structure GraphEdge where
  fromId : String
  toId : String
  weight : ℚ
deriving DecidableEq, Repr

/-- `Graph` of pathfinding.ts. -/
structure Graph where
  nodes : List GraphNode
  edges : List GraphEdge
deriving DecidableEq, Repr

/-- `PathResult` of pathfinding.ts. -/
structure PathResult where
  path : List String
  coordinates : List (ℚ × ℚ)
deriving DecidableEq, Repr

/-- `adjacency.get(k).push(v)` with the key created on demand: append `v` to
the list stored at `k`, creating the key at the end of the map if absent. -/
def adjPush : List (String × List (String × ℚ)) → String → String × ℚ →
    List (String × List (String × ℚ))
  | [], k, v => [(k, [v])]
  | (k0, vs) :: rest, k, v =>
    if k0 = k then (k0, vs ++ [v]) :: rest else (k0, vs) :: adjPush rest k v

/-- `buildAdjacencyList`: for every edge, add the forward and the reverse
entry (bidirectional paths) with the same weight. -/
def buildAdjacencyList (edges : List GraphEdge) :
    List (String × List (String × ℚ)) :=
  edges.foldl
    (fun adj e =>
      adjPush (adjPush adj e.fromId (e.toId, e.weight)) e.toId (e.fromId, e.weight))
    []

/-- `new Map(nodes.map(n => [n.id, n]))` followed by `.get`: with a duplicated
id the later node wins. -/
def nodeMapGet (nodes : List GraphNode) (id : String) : Option GraphNode :=
  nodes.foldl (fun acc n => if n.id = id then some n else acc) none

/-- The mutable state of the Dijkstra main loop. -/
structure DijkstraState where
  distances : List (String × WithTop ℚ)
  previous : List (String × Option String)
  visited : List String
  queue : List (String × WithTop ℚ)
deriving DecidableEq, Repr

/-- Relax one neighbour `nb` of the just-popped node `cur`.  A lookup of a
missing key yields `undefined` in JS and every `<` comparison against
`undefined` (or against a `NaN` sum built from it) is false, so relaxation
happens only when both distance entries exist. -/
def relaxStep (cur : String) (s : DijkstraState) (nb : String × ℚ) :
    DijkstraState :=
  if nb.1 ∈ s.visited then s
  else
    match mapGet s.distances cur, mapGet s.distances nb.1 with
    | some dc, some dn =>
      if dc + (nb.2 : WithTop ℚ) < dn then
        { s with
          distances := mapSet s.distances nb.1 (dc + (nb.2 : WithTop ℚ))
          previous := mapSet s.previous nb.1 (some cur)
          queue := s.queue ++ [(nb.1, dc + (nb.2 : WithTop ℚ))] }
      else s
    | _, _ => s

/-- Stable insertion after all entries of smaller or equal distance, the
building block of the stable `queue.sort((a, b) => a.distance - b.distance)`. -/
def insertEntry (x : String × WithTop ℚ) :
    List (String × WithTop ℚ) → List (String × WithTop ℚ)
  | [] => [x]
  | y :: ys => if y.2 ≤ x.2 then y :: insertEntry x ys else x :: y :: ys

/-- The in-place stable sort of the queue by distance. -/
def sortQueue (q : List (String × WithTop ℚ)) : List (String × WithTop ℚ) :=
  q.foldl (fun acc x => insertEntry x acc) []

/-- The Dijkstra `while (queue.length > 0)` loop: sort, shift the minimum,
skip it if visited, mark it visited, stop once the destination is popped,
otherwise relax every neighbour.  Each iteration pops one entry and pushes
happen only while processing a node not yet visited, so
`nodes.length + 2 * edges.length + 2` iterations always suffice. -/
def dijkstraLoop (adj : List (String × List (String × ℚ))) (endId : String) :
    Nat → DijkstraState → DijkstraState
  | 0, s => s
  | fuel + 1, s =>
    match sortQueue s.queue with
    | [] => s
    | cur :: rest =>
      if cur.1 ∈ s.visited then
        dijkstraLoop adj endId fuel { s with queue := rest }
      else
        let s1 : DijkstraState :=
          { s with visited := s.visited ++ [cur.1], queue := rest }
        if cur.1 = endId then s1
        else
          dijkstraLoop adj endId fuel
            (((mapGet adj cur.1).getD []).foldl (relaxStep cur.1) s1)

/-- The path reconstruction
`while (currentNode !== null) { path.unshift(currentNode); currentNode = previous.get(currentNode) ?? null }`.
Every `previous` link points to a node visited strictly earlier, so the chain
is acyclic and `nodes.length + 1` steps always suffice; the fuel-out branch
stops exactly like the `null` case and cannot fabricate a path that starts at
the start node unless the links provide it. -/
def reconstructPath (previous : List (String × Option String)) :
    Nat → String → List String → List String
  | 0, cur, acc => cur :: acc
  | fuel + 1, cur, acc =>
    match mapGet previous cur with
    | some (some nxt) => reconstructPath previous fuel nxt (cur :: acc)
    | _ => cur :: acc

/-- Iteration bound for the Dijkstra loop. -/
def dijkstraFuel (g : Graph) : Nat :=
  g.nodes.length + 2 * g.edges.length + 2

/-- Coordinate lookup for the rendered path (`nodeMap.get(nodeId)!`; the ids
on a reconstructed path are validated node ids, so the default is dead). -/
def getNodeCoord (nodes : List GraphNode) (id : String) : ℚ × ℚ :=
  match nodeMapGet nodes id with
  | some n => (n.x, n.y)
  | none => (0, 0)

/-- `findShortestPath(graph, startId, endId)` of pathfinding.ts. -/
def findShortestPath (g : Graph) (startId endId : String) :
    Option PathResult :=
  if (nodeMapGet g.nodes startId).isNone || (nodeMapGet g.nodes endId).isNone then
    none
  else
    let adjacency := buildAdjacencyList g.edges
    let distances0 :=
      g.nodes.foldl (fun m n => mapSet m n.id (⊤ : WithTop ℚ)) []
    let previous0 : List (String × Option String) :=
      g.nodes.foldl (fun m n => mapSet m n.id none) []
    let s0 : DijkstraState :=
      ⟨mapSet distances0 startId ((0 : ℚ) : WithTop ℚ), previous0, [],
        [(startId, ((0 : ℚ) : WithTop ℚ))]⟩
    let sF := dijkstraLoop adjacency endId (dijkstraFuel g) s0
    let path := reconstructPath sF.previous (g.nodes.length + 1) endId []
    if path.head? = some startId then
      some ⟨path, path.map (getNodeCoord g.nodes)⟩
    else none

/-- Two node ids joined by some edge of the weighted graph, in either
direction. -/
def edgeAdj (g : Graph) (a b : String) : Prop :=
  ∃ e ∈ g.edges, (e.fromId = a ∧ e.toId = b) ∨ (e.fromId = b ∧ e.toId = a)

/-- Connectivity in the weighted graph. -/
def graphConnected (g : Graph) : String → String → Prop :=
  Relation.ReflTransGen (edgeAdj g)

/-- `x` is the id of a declared node (the spec's invariant: every node
referenced by an edge must exist in the node set). -/
def nodeDeclared (g : Graph) (x : String) : Prop :=
  (nodeMapGet g.nodes x).isSome = true

/-- One hop of the built adjacency list. -/
def dijAdjMem (adj : List (String × List (String × ℚ))) (u v : String) : Prop :=
  ∃ w : ℚ, (v, w) ∈ (mapGet adj u).getD []

/-- The total number of neighbour records of an adjacency list. -/
def totalPairs (adj : List (String × List (String × ℚ))) : Nat :=
  (adj.map (fun e => e.2.length)).sum

/-- The measure term of the Dijkstra loop: each unvisited node id still
accounts for one visit and as many pushes as it has neighbours. -/
def dijUnseen (g : Graph) (adj : List (String × List (String × ℚ)))
    (visited : List String) : Nat :=
  (((g.nodes.map GraphNode.id).toFinset) \ visited.toFinset).sum
    (fun x => 1 + ((mapGet adj x).getD []).length)

/-- The state invariants of the Dijkstra main loop (`adj` is the built
adjacency list, `c` the start id): the visited list is duplicate-free and
holds declared node ids, the distance map is keyed exactly by declared
nodes, queued nodes carry a finite recorded distance, finite-distance nodes
are visited or queued, every queued node is the start or carries a
previous-link into the visited set, previous-links land in the visited set,
the start keeps its `null` previous-link and is visited, and path
reconstruction from any visited node leads back to the start. -/
structure DijkCore (g : Graph) (adj : List (String × List (String × ℚ)))
    (c : String) (s : DijkstraState) : Prop where
  nodup : s.visited.Nodup
  vn : ∀ v ∈ s.visited, nodeDeclared g v
  distKeys : ∀ x, nodeDeclared g x → ∃ dv, mapGet s.distances x = some dv
  distKeysRev : ∀ x dv, mapGet s.distances x = some dv → nodeDeclared g x
  finq : ∀ p ∈ s.queue, ∃ dv, mapGet s.distances p.1 = some dv ∧ dv ≠ ⊤
  distVis : ∀ x dv, mapGet s.distances x = some dv → dv ≠ ⊤ →
    x ∈ s.visited ∨ ∃ p ∈ s.queue, p.1 = x
  qprev : ∀ p ∈ s.queue, p.1 = c ∨
    ∃ m ∈ s.visited, mapGet s.previous p.1 = some (some m)
  prevok : ∀ v m, mapGet s.previous v = some (some m) → m ∈ s.visited
  prevc : mapGet s.previous c = some none
  cvis : c ∈ s.visited
  chain : ∀ v ∈ s.visited, ∀ (fuel : Nat) (acc : List String),
    s.visited.length ≤ fuel →
    (reconstructPath s.previous fuel v acc).head? = some c

/-- The frontier invariant of the Dijkstra loop: every neighbour of a
visited (processed) node is visited or queued. -/
def DijkFront (adj : List (String × List (String × ℚ)))
    (s : DijkstraState) : Prop :=
  ∀ u ∈ s.visited, ∀ nb ∈ (mapGet adj u).getD [],
    nb.1 ∈ s.visited ∨ ∃ p ∈ s.queue, p.1 = nb.1

/-! ## Nearest-node lookup (`findNearestNode` of the navigation script) -/

/-- One entry of `campusNodes`: GPS coordinates mapped to an SVG id. -/
structure CampusNode where
  name : String
  lat : ℚ
  lng : ℚ
  svgId : String
  type : String
deriving DecidableEq, Repr

/-- The record `{ nodeId, node, distance }` returned by `findNearestNode`
(`nodeId`/`node` start as `null`, `distance` as `Infinity`). -/
structure NearestResult where
  nodeId : Option String
  node : Option CampusNode
  distance : WithTop ℚ
deriving DecidableEq, Repr

/-- The body of the `findNearestNode` scan: keep the entry if it is strictly
closer than the minimum seen so far. -/
def nearestStep (dist : ℚ → ℚ → ℚ → ℚ → ℚ) (lat lng : ℚ)
    (acc : NearestResult) (e : String × CampusNode) : NearestResult :=
  if ((dist lat lng e.2.lat e.2.lng : ℚ) : WithTop ℚ) < acc.distance then
    ⟨some e.1, some e.2, ((dist lat lng e.2.lat e.2.lng : ℚ) : WithTop ℚ)⟩
  else acc

/-- `findNearestNode(lat, lng)`: a linear scan over `Object.entries(campusNodes)`
keeping the strictly closest entry seen so far.  The metric is a parameter:
the JS `haversineDistance` computes with IEEE-754 transcendental functions,
which have no shallow embedding; the verified properties only use that the
metric is zero on an exact coordinate match and positive elsewhere. -/
def findNearestNode (dist : ℚ → ℚ → ℚ → ℚ → ℚ)
    (campusNodes : List (String × CampusNode)) (lat lng : ℚ) : NearestResult :=
  campusNodes.foldl (nearestStep dist lat lng) ⟨none, none, ⊤⟩

/-! ## The navigation handler (`handleNavigate` of the Index component) -/

/-- JS truthiness of an optional string field (`undefined` and `""` are
falsy). -/
def strTruthy : Option String → Bool
  | none => false
  | some s => s != ""

/-- The observable outcome of `handleNavigate`.  The error strings shown to
the user are carried as data: `alreadyAt` holds the start node's name
(the "you're already at …" notice), `sameBuilding` the truthy floor label of
the destination (the "same building …, just in the <floor>" notice, or the
different-floor wording when the label is absent). -/
inductive NavOutcome where
  | ignored : NavOutcome
  | alreadyAt (name : String) : NavOutcome
  | sameBuilding (floorLabel : Option String) : NavOutcome
  | routed (r : PathResult) : NavOutcome
  | noPath : NavOutcome
deriving DecidableEq, Repr

/-- The floor label used by the same-building notice
(`endNode.floor ? … : …`). -/
def floorInfoOf (endNode : GraphNode) : Option String :=
  if strTruthy endNode.floor then endNode.floor else none

/-- The decision logic of `handleNavigate(startId, endId)`: resolve both
nodes (`.find`), report equal endpoints, then the same-block check
(`startNode.blockId === endId`, `endNode.blockId === startId`, or both
block ids truthy and equal), and only if all three fail run the solver. -/
def handleNavigate (graph : Graph) (startId endId : String) : NavOutcome :=
  match graph.nodes.find? (fun n => n.id == startId),
      graph.nodes.find? (fun n => n.id == endId) with
  | some startNode, some endNode =>
    if startId = endId then .alreadyAt startNode.name
    else
      let isStartInBlock := startNode.blockId == some endId
      let isEndInBlock := endNode.blockId == some startId
      let areInSameBlock := strTruthy startNode.blockId &&
        strTruthy endNode.blockId && (startNode.blockId == endNode.blockId)
      if isStartInBlock || isEndInBlock || areInSameBlock then
        .sameBuilding (floorInfoOf endNode)
      else
        match findShortestPath graph startId endId with
        | some r => .routed r
        | none => .noPath
  | _, _ => .ignored

/-! ## Concrete inputs used by witnesses and counterexamples -/

/-- The three-node weighted graph of the spec's Dijkstra test case:
edges A–B of weight 3 and B–C of weight 4, no direct A–C edge. -/
def weightedTestGraph : Graph :=
  ⟨[⟨"A", "A", 0, 0, none, none⟩, ⟨"B", "B", 10, 5, none, none⟩,
    ⟨"C", "C", 20, 9, none, none⟩],
   [⟨"A", "B", 3⟩, ⟨"B", "C", 4⟩]⟩

/-- A two-block graph with a single road between the blocks. -/
def bfsTestGraph : BFSGraph :=
  [("X", [("Y", ["r1"])]), ("Y", [("X", ["r1"])])]

/-- A block graph in which `X` has no edges at all and `Z` is absent. -/
def isolatedBfsGraph : BFSGraph :=
  [("X", [])]

/-- A weighted graph with two nodes and no edges. -/
def edgelessGraph : Graph :=
  ⟨[⟨"X", "X", 0, 0, none, none⟩, ⟨"Z", "Z", 5, 5, none, none⟩], []⟩

/-- A graph in which node `ab4_floor2` declares `ab4` as its containing
block, plus an edge so that a graph-level path between the two exists. -/
def sameBuildingGraph : Graph :=
  ⟨[⟨"ab4", "Academic Block 4", 0, 0, none, none⟩,
    ⟨"ab4_floor2", "AB4 Research Wing", 1, 1, some "ab4", some "2nd floor"⟩],
   [⟨"ab4", "ab4_floor2", 1⟩]⟩

/-- Two campus nodes with distinct coordinates. -/
def nearestTestNodes : List (String × CampusNode) :=
  [("alpha", ⟨"Alpha Block", 0, 0, "block_alpha", "academic"⟩),
   ("beta", ⟨"Beta Block", 1, 0, "block_beta", "academic"⟩)]

/-- A concrete discrete metric (0 on equal coordinates, 1 otherwise) for
exercising the nearest-node scan on rational inputs. -/
def exactDist (lat1 lng1 lat2 lng2 : ℚ) : ℚ :=
  if lat1 = lat2 ∧ lng1 = lng2 then 0 else 1

/-! ## Map lemmas -/

theorem mapGet_mapSet {κ α : Type} [DecidableEq κ] (m : List (κ × α)) (k k' : κ)
    (v : α) :
    mapGet (mapSet m k v) k' = if k = k' then some v else mapGet m k' := by
  induction m with
  | nil => simp [mapSet, mapGet]
  | cons h t ih =>
    obtain ⟨k0, v0⟩ := h
    by_cases h0 : k0 = k
    · subst h0
      by_cases h1 : k0 = k'
      · subst h1; simp [mapSet, mapGet]
      · simp [mapSet, mapGet, h1]
    · by_cases h1 : k0 = k'
      · subst h1
        have : k ≠ k0 := fun h => h0 h.symm
        simp [mapSet, mapGet, h0, this]
      · simp [mapSet, mapGet, h0, h1, ih]

/-! ## C1: the weighted solver on the A–B–C demo graph -/

set_option maxHeartbeats 4000000 in
/-- C1.  On a graph with nodes A, B, C (at arbitrary coordinates), an edge
A–B of weight 3, an edge B–C of weight 4 and no direct A–C edge,
`findShortestPath(graph, A, C)` returns the node sequence `[A, B, C]`
together with the coordinates of A, B and C in that order. -/
theorem findShortestPath_weight_3_4_demo (xa ya xb yb xc yc : ℚ) :
    findShortestPath
        ⟨[⟨"A", "A", xa, ya, none, none⟩, ⟨"B", "B", xb, yb, none, none⟩,
          ⟨"C", "C", xc, yc, none, none⟩],
         [⟨"A", "B", 3⟩, ⟨"B", "C", 4⟩]⟩ "A" "C" =
      some ⟨["A", "B", "C"], [(xa, ya), (xb, yb), (xc, yc)]⟩ := by
  rfl

/-! ## C4 and C10: equal endpoints are answered before the search -/

/-- C4.  For a node id `X` present in the block graph, `findPath(X, X)`
returns the zero-length path `{ roads: [], nodes: [X] }` with no warning;
the answer is produced by the pre-check (the same call against any other
graph gives the identical result), not by the search. -/
theorem findPath_equal_endpoints (g : BFSGraph) (X : String)
    (_h : (mapGet g X).isSome = true) :
    findPath g X X = (some ⟨[], [X]⟩, []) ∧
      ∀ g2 : BFSGraph, findPath g2 X X = findPath g X X := by
  refine ⟨by simp [findPath], fun g2 => by simp [findPath]⟩

/-- Witness for C4 on the campus data. -/
theorem findPath_equal_endpoints_witness :
    findPath campusGraph "block_main_gate" "block_main_gate" =
      (some ⟨[], ["block_main_gate"]⟩, []) :=
  (findPath_equal_endpoints campusGraph "block_main_gate" (by decide)).1

/-- C10.  For an id `X` absent from the block graph, `findPath(X, X)` still
returns `{ roads: [], nodes: [X] }` rather than the node-not-found warning,
because the equal-endpoints check precedes the membership check. -/
theorem findPath_equal_endpoints_absent (g : BFSGraph) (X : String)
    (_h : mapGet g X = none) :
    findPath g X X = (some ⟨[], [X]⟩, []) := by
  simp [findPath]

/-- Witness for C10: an id that is not a block of the campus graph. -/
theorem findPath_equal_endpoints_absent_witness :
    findPath campusGraph "no_such_block" "no_such_block" =
      (some ⟨[], ["no_such_block"]⟩, []) :=
  findPath_equal_endpoints_absent campusGraph "no_such_block" (by decide)

/-! ## C8: the missing-start failure is the warned one -/

/-- C8.  When the start id is absent from the block graph (and differs from
the end id) `findPath` fails with the node-not-found warning on the console
channel, and that signal distinguishes the case from the silent no-path
result: any call whose start id is present emits no warning at all. -/
theorem findPath_missing_start_warns (g : BFSGraph) (s e : String)
    (h1 : s ≠ e) (h2 : mapGet g s = none) :
    findPath g s e = (none, ["Node not in graph: " ++ s]) ∧
      ∀ (g2 : BFSGraph) (s2 e2 : String),
        (mapGet g2 s2).isSome = true → (findPath g2 s2 e2).2 = [] := by
  constructor
  · simp [findPath, h1, h2]
  · intro g2 s2 e2 hp
    by_cases he : s2 = e2
    · simp [findPath, he]
    · have hn : ¬mapGet g2 s2 = none := by
        intro hnone; rw [hnone] at hp; simp at hp
      simp [findPath, he, hn]

/-- Witness for C8 on the campus data. -/
theorem findPath_missing_start_warns_witness :
    findPath campusGraph "ghost_block" "block_admin" =
      (none, ["Node not in graph: ghost_block"]) :=
  (findPath_missing_start_warns campusGraph "ghost_block" "block_admin"
    (by decide) (by decide)).1

/-! ## C9: the empty-graph answer of the nearest-node scan -/

/-- C9.  On a graph with zero nodes `findNearestNode` returns the sentinel
`{ nodeId: null, node: null, distance: Infinity }` for every input
coordinate and every metric: no crash, and no value that looks like a found
node. -/
theorem findNearestNode_empty_graph (dist : ℚ → ℚ → ℚ → ℚ → ℚ) (lat lng : ℚ) :
    findNearestNode dist [] lat lng = ⟨none, none, ⊤⟩ := rfl

/-! ## C6: reverse-direction consistency of edges

The weighted adjacency built by `buildAdjacencyList` is direction-symmetric
with identical weights, but the hand-authored `campusGraph` is not: several
directed block edges carry a segment list whose opposite direction is not
the exact reverse (or is missing altogether). -/

theorem adjPush_get (adj : List (String × List (String × ℚ))) (k k' : String)
    (v : String × ℚ) :
    mapGet (adjPush adj k v) k' =
      if k = k' then some ((mapGet adj k').getD [] ++ [v]) else mapGet adj k' := by
  induction adj with
  | nil =>
    by_cases h : k = k' <;> simp [adjPush, mapGet, h]
  | cons hd t ih =>
    obtain ⟨k0, vs⟩ := hd
    by_cases h0 : k0 = k
    · subst h0
      by_cases h1 : k0 = k'
      · subst h1; simp [adjPush, mapGet]
      · simp [adjPush, mapGet, h1]
    · by_cases h1 : k0 = k'
      · subst h1
        have hk : k ≠ k0 := fun h => h0 h.symm
        simp [adjPush, mapGet, h0, hk]
      · simp [adjPush, mapGet, h0, h1, ih]

/-- Membership in an adjacency list survives further pushes. -/
theorem adjPush_mem_mono {adj : List (String × List (String × ℚ))}
    {a : String} {p : String × ℚ} (k : String) (v : String × ℚ)
    (h : p ∈ (mapGet adj a).getD []) :
    p ∈ (mapGet (adjPush adj k v) a).getD [] := by
  rw [adjPush_get]
  by_cases hk : k = a
  · subst hk; simp [List.mem_append]; left; exact h
  · simp [hk]; exact h

/-- The two entries a single edge contributes are present after its step. -/
theorem buildStep_adds (adj : List (String × List (String × ℚ))) (e : GraphEdge) :
    (e.toId, e.weight) ∈
        (mapGet (adjPush (adjPush adj e.fromId (e.toId, e.weight)) e.toId
          (e.fromId, e.weight)) e.fromId).getD [] ∧
      (e.fromId, e.weight) ∈
        (mapGet (adjPush (adjPush adj e.fromId (e.toId, e.weight)) e.toId
          (e.fromId, e.weight)) e.toId).getD [] := by
  constructor
  · apply adjPush_mem_mono
    rw [adjPush_get]
    simp
  · rw [adjPush_get]
    simp

/-- Any pair found in the built adjacency list comes from some edge, in one
of the two directions, with that edge's weight. -/
theorem buildAdj_mem (edges : List GraphEdge) (a b : String) (w : ℚ)
    (h : (b, w) ∈ (mapGet (buildAdjacencyList edges) a).getD []) :
    ∃ e ∈ edges,
      ((e.fromId = a ∧ e.toId = b) ∨ (e.fromId = b ∧ e.toId = a)) ∧
        e.weight = w := by
  suffices H : ∀ (l : List GraphEdge) (adj0 : List (String × List (String × ℚ)))
      (R : String → String → ℚ → Prop),
      (∀ x y u, (y, u) ∈ (mapGet adj0 x).getD [] → R x y u) →
      (∀ e ∈ l, R e.fromId e.toId e.weight ∧ R e.toId e.fromId e.weight) →
      ∀ x y u,
        (y, u) ∈ (mapGet (l.foldl (fun adj e =>
          adjPush (adjPush adj e.fromId (e.toId, e.weight)) e.toId
            (e.fromId, e.weight)) adj0) x).getD [] → R x y u by
    refine H edges []
      (fun x y u => ∃ e ∈ edges,
        ((e.fromId = x ∧ e.toId = y) ∨ (e.fromId = y ∧ e.toId = x)) ∧
          e.weight = u)
      (by intro x y u hx; simp [mapGet] at hx)
      (fun e he => ⟨⟨e, he, Or.inl ⟨rfl, rfl⟩, rfl⟩, ⟨e, he, Or.inr ⟨rfl, rfl⟩, rfl⟩⟩)
      a b w h
  intro l
  induction l with
  | nil => intro adj0 R h0 _ x y u hm; exact h0 x y u hm
  | cons e t ih =>
    intro adj0 R h0 hl x y u hm
    refine ih _ R ?_ (fun e' he' => hl e' (List.mem_cons_of_mem e he')) x y u hm
    intro x' y' u' hx'
    rw [adjPush_get] at hx'
    by_cases h2 : e.toId = x'
    · rw [if_pos h2] at hx'
      simp only [Option.getD_some, List.mem_append, List.mem_singleton] at hx'
      rcases hx' with hx' | hx'
      · rw [adjPush_get] at hx'
        by_cases h3 : e.fromId = x'
        · rw [if_pos h3] at hx'
          simp only [Option.getD_some, List.mem_append, List.mem_singleton] at hx'
          rcases hx' with hx' | hx'
          · exact h0 x' y' u' hx'
          · obtain ⟨hy, hu⟩ := Prod.mk.injEq .. ▸ hx'
            subst h3
            exact (Prod.mk.injEq .. ▸ hx').1 ▸ (Prod.mk.injEq .. ▸ hx').2 ▸
              (hl e (List.mem_cons_self e t)).1
        · rw [if_neg h3] at hx'
          exact h0 x' y' u' hx'
      · have hy : y' = e.fromId := (Prod.mk.injEq .. ▸ hx').1
        have hu : u' = e.weight := (Prod.mk.injEq .. ▸ hx').2
        subst hy; subst hu; subst h2
        exact (hl e (List.mem_cons_self e t)).2
    · rw [if_neg h2] at hx'
      rw [adjPush_get] at hx'
      by_cases h3 : e.fromId = x'
      · rw [if_pos h3] at hx'
        simp only [Option.getD_some, List.mem_append, List.mem_singleton] at hx'
        rcases hx' with hx' | hx'
        · exact h0 x' y' u' hx'
        · have hy : y' = e.toId := (Prod.mk.injEq .. ▸ hx').1
          have hu : u' = e.weight := (Prod.mk.injEq .. ▸ hx').2
          subst hy; subst hu; subst h3
          exact (hl e (List.mem_cons_self e t)).1
      · rw [if_neg h3] at hx'
        exact h0 x' y' u' hx'

/-- Every edge's two directed entries are present in the built adjacency
list with the same weight. -/
theorem buildAdj_mem_of_edge (edges : List GraphEdge) (e : GraphEdge)
    (he : e ∈ edges) :
    (e.toId, e.weight) ∈ (mapGet (buildAdjacencyList edges) e.fromId).getD [] ∧
      (e.fromId, e.weight) ∈ (mapGet (buildAdjacencyList edges) e.toId).getD [] := by
  suffices H : ∀ (l : List GraphEdge) (adj0 : List (String × List (String × ℚ))),
      e ∈ l ∨
        ((e.toId, e.weight) ∈ (mapGet adj0 e.fromId).getD [] ∧
          (e.fromId, e.weight) ∈ (mapGet adj0 e.toId).getD []) →
      (e.toId, e.weight) ∈ (mapGet (l.foldl (fun adj e' =>
          adjPush (adjPush adj e'.fromId (e'.toId, e'.weight)) e'.toId
            (e'.fromId, e'.weight)) adj0) e.fromId).getD [] ∧
        (e.fromId, e.weight) ∈ (mapGet (l.foldl (fun adj e' =>
          adjPush (adjPush adj e'.fromId (e'.toId, e'.weight)) e'.toId
            (e'.fromId, e'.weight)) adj0) e.toId).getD [] from
    H edges [] (Or.inl he)
  intro l
  induction l with
  | nil =>
    intro adj0 h
    rcases h with h | h
    · exact absurd h (List.not_mem_nil e)
    · exact h
  | cons e' t ih =>
    intro adj0 h
    rcases h with h | h
    · rcases List.mem_cons.mp h with h | h
      · subst h
        exact ih _ (Or.inr (buildStep_adds adj0 e))
      · exact ih _ (Or.inl h)
    · refine ih _ (Or.inr ⟨?_, ?_⟩)
      · exact adjPush_mem_mono _ _ (adjPush_mem_mono _ _ h.1)
      · exact adjPush_mem_mono _ _ (adjPush_mem_mono _ _ h.2)

/-- C6 counterexample.  In `campusGraph` the forward edge
`block_health_centre → block_b_hostel` carries
`[road_central_junction, road_health_to_bblock]`, but the reverse edge
carries `[road_central_junction]`, which is not the reversed forward list:
a B→A request over this edge does not highlight the segments in reverse
order. -/
theorem campusGraph_reverse_segments_cex :
    edgeSegments campusGraph "block_health_centre" "block_b_hostel" =
        some ["road_central_junction", "road_health_to_bblock"] ∧
      edgeSegments campusGraph "block_b_hostel" "block_health_centre" =
        some ["road_central_junction"] ∧
      edgeSegments campusGraph "block_b_hostel" "block_health_centre" ≠
        some (["road_central_junction", "road_health_to_bblock"].reverse) := by
  decide

/-- C6 amended.  Weighted edges are reverse-consistent: the adjacency list
built by `buildAdjacencyList` contains `(b, w)` under `a` exactly when it
contains `(a, w)` under `b`.  The `predefinedRoutes` table is also
reverse-consistent once `generateReverseRoutes` has run: every route's
opposite direction is present and carries the exact reversed segment list.
But for the block graph the solver traverses the property fails on exactly
eight directed edges of `campusGraph` (each listed pair `(a, b)` is an edge
`a → b` whose opposite direction is missing or not the exact reversed
segment list); every other edge is exactly reversed. -/
theorem reverse_consistency_amended :
    routeReverseViolations (generateReverseRoutes predefinedRoutes) = [] ∧
    reverseViolations campusGraph =
        [("block_north_square", "block_e_hostel"),
         ("block_e_hostel", "block_north_square"),
         ("block_health_centre", "block_b_hostel"),
         ("block_ab2_south", "block_e_hostel"),
         ("block_b_hostel", "block_health_centre"),
         ("block_c_hostel", "block_health_centre"),
         ("block_d1_hostel", "block_health_centre"),
         ("block_d2_hostel", "block_health_centre")] ∧
      ∀ (edges : List GraphEdge) (a b : String) (w : ℚ),
        (b, w) ∈ (mapGet (buildAdjacencyList edges) a).getD [] ↔
          (a, w) ∈ (mapGet (buildAdjacencyList edges) b).getD [] := by
  refine ⟨by decide, by decide, ?_⟩
  · intro edges a b w
    constructor
    · intro h
      obtain ⟨e, he, hdir, hw⟩ := buildAdj_mem edges a b w h
      rcases hdir with ⟨hf, ht⟩ | ⟨hf, ht⟩
      · have := (buildAdj_mem_of_edge edges e he).2
        rw [hf, ht, hw] at this
        exact this
      · have := (buildAdj_mem_of_edge edges e he).1
        rw [hf, ht, hw] at this
        exact this
    · intro h
      obtain ⟨e, he, hdir, hw⟩ := buildAdj_mem edges b a w h
      rcases hdir with ⟨hf, ht⟩ | ⟨hf, ht⟩
      · have := (buildAdj_mem_of_edge edges e he).2
        rw [hf, ht, hw] at this
        exact this
      · have := (buildAdj_mem_of_edge edges e he).1
        rw [hf, ht, hw] at this
        exact this

/-! ## C2: returned paths run from the requested start to the requested end -/

theorem head?_append_left {α : Type} (l l' : List α) (h : l ≠ []) :
    (l ++ l').head? = l.head? := by
  cases l with
  | nil => exact absurd rfl h
  | cons x t => rfl

/-- Every entry the neighbour loop enqueues extends the popped entry's road
path and node path and ends at the enqueued neighbour. -/
theorem pushNeighbors_mem (path nodesAcc : List String) :
    ∀ (ns : List (String × List String)) (acc : List BFSEntry)
      (visited : List String) (e : BFSEntry),
      e ∈ (pushNeighbors path nodesAcc ns acc visited).1 →
      e ∈ acc ∨ ∃ nb ∈ ns, e = ⟨nb.1, path ++ nb.2, nodesAcc ++ [nb.1]⟩ := by
  intro ns
  induction ns with
  | nil => intro acc visited e he; exact Or.inl he
  | cons nb rest ih =>
    intro acc visited e he
    unfold pushNeighbors at he
    by_cases hv : nb.1 ∈ visited
    · rw [if_pos hv] at he
      rcases ih _ _ _ he with h | ⟨nb', hm, hsh⟩
      · exact Or.inl h
      · exact Or.inr ⟨nb', List.mem_cons_of_mem _ hm, hsh⟩
    · rw [if_neg hv] at he
      rcases ih _ _ _ he with h | ⟨nb', hm, hsh⟩
      · rcases List.mem_append.mp h with h | h
        · exact Or.inl h
        · rw [List.mem_singleton.mp h]
          exact Or.inr ⟨nb, List.mem_cons_self _ _, rfl⟩
      · exact Or.inr ⟨nb', List.mem_cons_of_mem _ hm, hsh⟩

/-- If every queued entry's node list starts at `a` and ends at the entry's
own node, a successful `bfsLoop` returns a node list from `a` to `endId`. -/
theorem bfsLoop_endpoints (g : BFSGraph) (endId a : String) :
    ∀ (fuel : Nat) (q : List BFSEntry) (visited : List String) (r : BFSResult),
      (∀ e ∈ q, e.nodes.head? = some a ∧ e.nodes.getLast? = some e.node) →
      bfsLoop g endId fuel q visited = some r →
      r.nodes.head? = some a ∧ r.nodes.getLast? = some endId := by
  intro fuel
  induction fuel with
  | zero => intro q visited r _ h; exact absurd h (by simp [bfsLoop])
  | succ f ih =>
    intro q visited r hq h
    match q with
    | [] => exact absurd h (by simp [bfsLoop])
    | e :: rest =>
      simp only [bfsLoop] at h
      by_cases hend : e.node = endId
      · rw [if_pos hend] at h
        injection h with h
        obtain ⟨h1, h2⟩ := hq e (List.mem_cons_self ..)
        rw [← h]
        exact ⟨h1, hend ▸ h2⟩
      · rw [if_neg hend] at h
        cases hm : mapGet g e.node with
        | none =>
          rw [hm] at h
          exact ih rest visited r (fun e' he' => hq e' (List.mem_cons_of_mem _ he')) h
        | some ns =>
          rw [hm] at h
          refine ih _ _ r ?_ h
          intro e' he'
          rcases List.mem_append.mp he' with h' | h'
          · exact hq e' (List.mem_cons_of_mem _ h')
          · rcases pushNeighbors_mem _ _ _ _ _ _ h' with h'' | ⟨nb, _, hsh⟩
            · exact absurd h'' (List.not_mem_nil e')
            · obtain ⟨h1, h2⟩ := hq e (List.mem_cons_self ..)
              rw [hsh]
              constructor
              · rw [head?_append_left]
                · exact h1
                · intro hnil; rw [hnil] at h1; simp at h1
              · exact List.getLast?_concat _

/-- A successful `findPath` reply runs from the requested start block to the
requested end block. -/
theorem bfs_findPath_endpoints (g : BFSGraph) (a b : String) (r : BFSResult)
    (h : (findPath g a b).1 = some r) :
    r.nodes.head? = some a ∧ r.nodes.getLast? = some b := by
  unfold findPath at h
  by_cases hab : a = b
  · subst hab
    rw [if_pos rfl] at h
    injection h with h
    rw [← h]
    exact ⟨rfl, rfl⟩
  · rw [if_neg hab] at h
    by_cases hnone : (mapGet g a).isNone
    · rw [if_pos hnone] at h
      exact absurd h (by simp)
    · rw [if_neg hnone] at h
      refine bfsLoop_endpoints g b a _ _ _ r ?_ h
      intro e he
      rw [List.mem_singleton.mp he]
      exact ⟨rfl, rfl⟩

theorem mapGet_mem {κ α : Type} [DecidableEq κ] (m : List (κ × α)) (k : κ)
    (v : α) (h : mapGet m k = some v) : (k, v) ∈ m := by
  induction m with
  | nil => exact absurd h (by simp [mapGet])
  | cons hd t ih =>
    obtain ⟨k0, v0⟩ := hd
    by_cases hk : k0 = k
    · subst hk
      rw [mapGet, if_pos rfl] at h
      injection h with h
      rw [h]
      exact List.mem_cons_self ..
    · rw [mapGet, if_neg hk] at h
      exact List.mem_cons_of_mem _ (ih h)

theorem bfsIds_mono :
    ∀ (l : BFSGraph) (acc : List String) (x : String),
      x ∈ acc →
      x ∈ l.foldl (fun acc e => acc ++ [e.1] ++ e.2.map Prod.fst) acc := by
  intro l
  induction l with
  | nil => intro acc x hx; exact hx
  | cons e t ih =>
    intro acc x hx
    exact ih _ x (List.mem_append_left _ (List.mem_append_left _ hx))

/-- Every neighbour id mentioned by an entry of the block graph is in
`bfsIds`. -/
theorem bfsIds_of_neighbor (g : BFSGraph) (k : String)
    (vs : List (String × List String)) (hmem : (k, vs) ∈ g)
    (nb : String × List String) (hnb : nb ∈ vs) : nb.1 ∈ bfsIds g := by
  suffices H : ∀ (l : BFSGraph) (acc : List String), (k, vs) ∈ l →
      nb.1 ∈ l.foldl (fun acc e => acc ++ [e.1] ++ e.2.map Prod.fst) acc from
    H g [] hmem
  intro l
  induction l with
  | nil => intro acc h; exact absurd h (List.not_mem_nil _)
  | cons e t ih =>
    intro acc h
    rcases List.mem_cons.mp h with h | h
    · rw [← h]
      refine bfsIds_mono t _ nb.1 (List.mem_append_right _ ?_)
      exact List.mem_map.mpr ⟨nb, hnb, rfl⟩
    · exact ih _ h

theorem pushNeighbors_visited_mono (path nodesAcc : List String) :
    ∀ (ns : List (String × List String)) (acc : List BFSEntry)
      (visited : List String) (x : String), x ∈ visited →
      x ∈ (pushNeighbors path nodesAcc ns acc visited).2 := by
  intro ns
  induction ns with
  | nil => intro acc visited x hx; exact hx
  | cons nb rest ih =>
    intro acc visited x hx
    unfold pushNeighbors
    by_cases hv : nb.1 ∈ visited
    · rw [if_pos hv]; exact ih _ _ x hx
    · rw [if_neg hv]; exact ih _ _ x (List.mem_append_left _ hx)

theorem pushNeighbors_neighbor_visited (path nodesAcc : List String) :
    ∀ (ns : List (String × List String)) (acc : List BFSEntry)
      (visited : List String) (nb : String × List String), nb ∈ ns →
      nb.1 ∈ (pushNeighbors path nodesAcc ns acc visited).2 := by
  intro ns
  induction ns with
  | nil => intro acc visited nb h; exact absurd h (List.not_mem_nil _)
  | cons nb0 rest ih =>
    intro acc visited nb h
    unfold pushNeighbors
    rcases List.mem_cons.mp h with h | h
    · by_cases hv : nb0.1 ∈ visited
      · rw [if_pos hv]
        exact pushNeighbors_visited_mono path nodesAcc rest _ _ nb.1 (h ▸ hv)
      · rw [if_neg hv]
        refine pushNeighbors_visited_mono path nodesAcc rest _ _ nb.1 ?_
        rw [h]
        exact List.mem_append_right _ (List.mem_singleton.mpr rfl)
    · by_cases hv : nb0.1 ∈ visited
      · rw [if_pos hv]; exact ih _ _ nb h
      · rw [if_neg hv]; exact ih _ _ nb h

theorem pushNeighbors_acc_mono (path nodesAcc : List String) :
    ∀ (ns : List (String × List String)) (acc : List BFSEntry)
      (visited : List String) (e : BFSEntry), e ∈ acc →
      e ∈ (pushNeighbors path nodesAcc ns acc visited).1 := by
  intro ns
  induction ns with
  | nil => intro acc visited e he; exact he
  | cons nb rest ih =>
    intro acc visited e he
    unfold pushNeighbors
    by_cases hv : nb.1 ∈ visited
    · rw [if_pos hv]; exact ih _ _ e he
    · rw [if_neg hv]; exact ih _ _ e (List.mem_append_left _ he)

/-- A node visited after the neighbour loop was either visited before it or
is the node of one of the loop's queue entries. -/
theorem pushNeighbors_visited_src (path nodesAcc : List String) :
    ∀ (ns : List (String × List String)) (acc : List BFSEntry)
      (visited : List String) (x : String),
      x ∈ (pushNeighbors path nodesAcc ns acc visited).2 →
      x ∈ visited ∨ ∃ e ∈ (pushNeighbors path nodesAcc ns acc visited).1,
        e.node = x := by
  intro ns
  induction ns with
  | nil => intro acc visited x hx; exact Or.inl hx
  | cons nb rest ih =>
    intro acc visited x hx
    unfold pushNeighbors at hx ⊢
    by_cases hv : nb.1 ∈ visited
    · rw [if_pos hv] at hx ⊢; exact ih _ _ x hx
    · rw [if_neg hv] at hx ⊢
      rcases ih _ _ x hx with h | h
      · rcases List.mem_append.mp h with h | h
        · exact Or.inl h
        · refine Or.inr ⟨⟨nb.1, path ++ nb.2, nodesAcc ++ [nb.1]⟩, ?_, ?_⟩
          · refine pushNeighbors_acc_mono path nodesAcc rest _ _ _
              (List.mem_append_right _ (List.mem_singleton.mpr rfl))
          · exact (List.mem_singleton.mp h).symm
      · exact Or.inr h

theorem bfsUnseen_append (g : BFSGraph) (x : String) (visited : List String)
    (hx : x ∈ bfsIds g) (hnx : x ∉ visited) :
    bfsUnseen g (visited ++ [x]) + 1 = bfsUnseen g visited := by
  unfold bfsUnseen
  have hset : ((bfsIds g).toFinset \ (visited ++ [x]).toFinset) =
      ((bfsIds g).toFinset \ visited.toFinset).erase x := by
    ext y
    simp only [List.toFinset_append, Finset.mem_sdiff, Finset.mem_erase,
      Finset.mem_union, List.toFinset_cons, List.toFinset_nil,
      Finset.mem_insert, List.mem_toFinset, Finset.not_mem_empty, or_false]
    tauto
  rw [hset]
  exact Finset.card_erase_add_one
    (Finset.mem_sdiff.mpr ⟨List.mem_toFinset.mpr hx,
      fun hm => hnx (List.mem_toFinset.mp hm)⟩)

theorem bfsUnseen_le (g : BFSGraph) (visited : List String) :
    bfsUnseen g visited ≤ (bfsIds g).length :=
  le_trans (Finset.card_le_card Finset.sdiff_subset) (List.toFinset_card_le _)

/-- Each iteration of the neighbour loop leaves
`new entries + unseen ids` no larger than before: every enqueued entry
freshly marks one previously unseen id as visited. -/
theorem pushNeighbors_measure (g : BFSGraph) (path nodesAcc : List String) :
    ∀ (ns : List (String × List String)) (acc : List BFSEntry)
      (visited : List String), (∀ nb ∈ ns, nb.1 ∈ bfsIds g) →
      (pushNeighbors path nodesAcc ns acc visited).1.length +
          bfsUnseen g (pushNeighbors path nodesAcc ns acc visited).2 ≤
        acc.length + bfsUnseen g visited := by
  intro ns
  induction ns with
  | nil => intro acc visited _; exact le_refl _
  | cons nb rest ih =>
    intro acc visited hns
    unfold pushNeighbors
    by_cases hv : nb.1 ∈ visited
    · rw [if_pos hv]
      exact ih _ _ (fun nb' h => hns nb' (List.mem_cons_of_mem _ h))
    · rw [if_neg hv]
      refine le_trans (ih _ _ (fun nb' h => hns nb' (List.mem_cons_of_mem _ h))) ?_
      rw [List.length_append, List.length_singleton]
      have hU := bfsUnseen_append g nb.1 visited
        (hns nb (List.mem_cons_self ..)) hv
      omega

/-- `AvoidReach` extends on the right by an avoiding hop. -/
theorem AvoidReach.tail (r : String → String → Prop) (S : List String)
    (u m z : String) (h : AvoidReach r S u m) (hadj : r m z) (hz : z ∉ S) :
    AvoidReach r S u z := by
  induction h with
  | refl a => exact AvoidReach.head a z z hadj hz (AvoidReach.refl z)
  | head a b c hab hb _ ih => exact AvoidReach.head a b z hab hb (ih hadj)

/-- One BFS step (pop `e`, enqueue its unvisited neighbours) preserves the
frontier invariant. -/
theorem frontierInv_step (g : BFSGraph) (e : BFSEntry) (rest : List BFSEntry)
    (visited : List String) (ns : List (String × List String))
    (hm : mapGet g e.node = some ns)
    (hInv : BfsFrontierInv g (e :: rest) visited) :
    BfsFrontierInv g
      (rest ++ (pushNeighbors e.roads e.nodes ns [] visited).1)
      (pushNeighbors e.roads e.nodes ns [] visited).2 := by
  intro u hu
  rcases pushNeighbors_visited_src _ _ _ _ _ _ hu with hold | ⟨e', he', hnode⟩
  · rcases hInv u hold with ⟨e', he', hnode⟩ | hall
    · rcases List.mem_cons.mp he' with he' | he'
      · right
        intro v hadj
        obtain ⟨ns', roads, hm', hmem⟩ := hadj
        have hns' : ns' = ns := by
          rw [he'] at hnode
          rw [hnode] at hm
          rw [hm] at hm'
          injection hm' with h
          exact h.symm
        subst hns'
        exact pushNeighbors_neighbor_visited _ _ _ _ _ (v, roads) hmem
      · exact Or.inl ⟨e', List.mem_append_left _ he', hnode⟩
    · right
      intro v hadj
      exact pushNeighbors_visited_mono _ _ _ _ _ v (hall v hadj)
  · exact Or.inl ⟨e', List.mem_append_right _ he', hnode⟩

/-- One BFS step preserves "a visited destination still has a queue entry"
(the popped entry is not the destination in the stepping case). -/
theorem endInv_step (_g : BFSGraph) (endId : String) (e : BFSEntry)
    (rest : List BFSEntry) (visited : List String)
    (ns : List (String × List String)) (hend : e.node ≠ endId)
    (hEnd : endId ∈ visited → ∃ x ∈ e :: rest, x.node = endId) :
    endId ∈ (pushNeighbors e.roads e.nodes ns [] visited).2 →
      ∃ x ∈ rest ++ (pushNeighbors e.roads e.nodes ns [] visited).1,
        x.node = endId := by
  intro hv
  rcases pushNeighbors_visited_src _ _ _ _ _ _ hv with hold | ⟨x, hx, hnode⟩
  · obtain ⟨x, hx, hnode⟩ := hEnd hold
    rcases List.mem_cons.mp hx with hx | hx
    · exact absurd (hx ▸ hnode) hend
    · exact ⟨x, List.mem_append_left _ hx, hnode⟩
  · exact ⟨x, List.mem_append_right _ hx, hnode⟩

/-- Path repair: a path that avoided the old visited set either ends in the
new visited set, or can be restarted at a new queue entry, or never touches
the new visited set at all. -/
theorem avoidReach_repair (g : BFSGraph) (visited visited' : List String)
    (q' : List BFSEntry) (hFront : BfsFrontierInv g q' visited') :
    ∀ u z, AvoidReach (bfsAdj g) visited u z →
      z ∈ visited' ∨ (∃ e ∈ q', AvoidReach (bfsAdj g) visited' e.node z) ∨
        (u ∉ visited' ∧ AvoidReach (bfsAdj g) visited' u z) := by
  intro u z h
  induction h with
  | refl a =>
    by_cases ha : a ∈ visited'
    · exact Or.inl ha
    · exact Or.inr (Or.inr ⟨ha, AvoidReach.refl a⟩)
  | head a b c hab _ _ ih =>
    rcases ih with h | h | ⟨hbnv, hbz⟩
    · exact Or.inl h
    · exact Or.inr (Or.inl h)
    · by_cases hav : a ∈ visited'
      · rcases hFront a hav with ⟨e, he, hnode⟩ | hall
        · refine Or.inr (Or.inl ⟨e, he, ?_⟩)
          rw [hnode]
          exact AvoidReach.head a b c hab hbnv hbz
        · exact absurd (hall b hab) hbnv
      · exact Or.inr (Or.inr ⟨hav, AvoidReach.head a b c hab hbnv hbz⟩)

/-- Completeness of the BFS loop: with enough fuel (always available, as the
measure argument shows), queue nodes visited, the frontier invariant, a
queue entry for the destination once visited, and the destination visited or
avoid-reachable from a queue entry, the loop succeeds. -/
theorem bfsLoop_complete (g : BFSGraph) (endId : String) :
    ∀ (fuel : Nat) (q : List BFSEntry) (visited : List String),
      q.length + bfsUnseen g visited < fuel →
      (∀ e ∈ q, e.node ∈ visited) →
      BfsFrontierInv g q visited →
      (endId ∈ visited → ∃ e ∈ q, e.node = endId) →
      (endId ∈ visited ∨ ∃ e ∈ q, AvoidReach (bfsAdj g) visited e.node endId) →
      ∃ r, bfsLoop g endId fuel q visited = some r := by
  intro fuel
  induction fuel with
  | zero => intro q visited hM; exact absurd hM (Nat.not_lt_zero _)
  | succ f ih =>
    intro q visited hM hqv hFront hEnd hInv
    match q with
    | [] =>
      exfalso
      rcases hInv with h | ⟨e, he, _⟩
      · obtain ⟨e, he, _⟩ := hEnd h
        exact absurd he (List.not_mem_nil _)
      · exact absurd he (List.not_mem_nil _)
    | e :: rest =>
      by_cases hend : e.node = endId
      · exact ⟨⟨e.roads, e.nodes⟩, by simp [bfsLoop, hend]⟩
      · cases hm : mapGet g e.node with
        | none =>
          have hFront' : BfsFrontierInv g rest visited := by
            intro u hu
            rcases hFront u hu with ⟨e', he', hnode⟩ | hall
            · rcases List.mem_cons.mp he' with he' | he'
              · right
                intro v hadj
                obtain ⟨ns', _, hm', _⟩ := hadj
                rw [he'] at hnode
                rw [hnode] at hm
                rw [hm] at hm'
                exact absurd hm' (by simp)
              · exact Or.inl ⟨e', he', hnode⟩
            · exact Or.inr hall
          have hEnd' : endId ∈ visited → ∃ x ∈ rest, x.node = endId := by
            intro hv
            obtain ⟨x, hx, hnode⟩ := hEnd hv
            rcases List.mem_cons.mp hx with hx | hx
            · exact absurd (hx ▸ hnode) hend
            · exact ⟨x, hx, hnode⟩
          have hInv' : endId ∈ visited ∨
              ∃ x ∈ rest, AvoidReach (bfsAdj g) visited x.node endId := by
            rcases hInv with h | ⟨e', he', hpath⟩
            · exact Or.inl h
            · rcases List.mem_cons.mp he' with he' | he'
              · cases hpath with
                | refl => exact absurd (he' ▸ rfl) hend
                | head _ b _ hab _ _ =>
                  obtain ⟨ns', _, hm', _⟩ := hab
                  rw [he'] at hm'
                  rw [hm] at hm'
                  exact absurd hm' (by simp)
              · exact Or.inr ⟨e', he', hpath⟩
          obtain ⟨r, hr⟩ := ih rest visited
            (by simp only [List.length_cons] at hM; omega)
            (fun x hx => hqv x (List.mem_cons_of_mem _ hx)) hFront' hEnd' hInv'
          refine ⟨r, ?_⟩
          simp only [bfsLoop, if_neg hend, hm]
          exact hr
        | some ns =>
          have hns : ∀ nb ∈ ns, nb.1 ∈ bfsIds g :=
            fun nb hnb => bfsIds_of_neighbor g e.node ns (mapGet_mem g e.node ns hm) nb hnb
          have hqv' : ∀ x ∈ rest ++ (pushNeighbors e.roads e.nodes ns [] visited).1,
              x.node ∈ (pushNeighbors e.roads e.nodes ns [] visited).2 := by
            intro x hx
            rcases List.mem_append.mp hx with hx | hx
            · exact pushNeighbors_visited_mono _ _ _ _ _ _
                (hqv x (List.mem_cons_of_mem _ hx))
            · rcases pushNeighbors_mem _ _ _ _ _ _ hx with h | ⟨nb, hnb, hsh⟩
              · exact absurd h (List.not_mem_nil _)
              · rw [hsh]
                exact pushNeighbors_neighbor_visited _ _ _ _ _ nb hnb
          have hFront' := frontierInv_step g e rest visited ns hm hFront
          have hEnd' := endInv_step g endId e rest visited ns hend hEnd
          have hInv' : endId ∈ (pushNeighbors e.roads e.nodes ns [] visited).2 ∨
              ∃ x ∈ rest ++ (pushNeighbors e.roads e.nodes ns [] visited).1,
                AvoidReach (bfsAdj g) (pushNeighbors e.roads e.nodes ns [] visited).2
                  x.node endId := by
            rcases hInv with h | ⟨e', he', hpath⟩
            · exact Or.inl (pushNeighbors_visited_mono _ _ _ _ _ _ h)
            · rcases avoidReach_repair g visited _ _ hFront' e'.node endId hpath with
                h | h | ⟨hnv, _⟩
              · exact Or.inl h
              · exact Or.inr h
              · exact absurd
                  (pushNeighbors_visited_mono _ _ _ _ _ _ (hqv e' he')) hnv
          obtain ⟨r, hr⟩ := ih _ _
            (by
              have hmes := pushNeighbors_measure g e.roads e.nodes ns [] visited hns
              simp only [List.length_append, List.length_cons, List.length_nil] at hM hmes ⊢
              omega)
            hqv' hFront' hEnd' hInv'
          refine ⟨r, ?_⟩
          simp only [bfsLoop, if_neg hend, hm]
          exact hr

/-- Completeness of `findPath`: a route in the block graph guarantees a
non-null reply. -/
theorem findPath_complete (g : BFSGraph) (a b : String)
    (h : bfsReachable g a b) : ∃ r, (findPath g a b).1 = some r := by
  by_cases hab : a = b
  · subst hab
    exact ⟨⟨[], [a]⟩, by simp [findPath]⟩
  · have hkey : ∃ ns, mapGet g a = some ns := by
      rcases Relation.ReflTransGen.cases_head h with h1 | ⟨y, hy, _⟩
      · exact absurd h1 hab
      · obtain ⟨ns, roads, hg, _⟩ := hy
        exact ⟨ns, hg⟩
    obtain ⟨ns, hns⟩ := hkey
    have havoid : AvoidReach (bfsAdj g) [a] a b := by
      have H : ∀ z, bfsReachable g a z → z = a ∨ AvoidReach (bfsAdj g) [a] a z := by
        intro z hz
        induction hz with
        | refl => exact Or.inl rfl
        | tail _ hadj ihz =>
          rename_i m z' _
          by_cases hz' : z' = a
          · exact Or.inl hz'
          · right
            have hznot : z' ∉ ([a] : List String) := by
              simp [hz']
            rcases ihz with hma | hpath
            · exact AvoidReach.head a z' z' (hma ▸ hadj) hznot (AvoidReach.refl z')
            · exact AvoidReach.tail (bfsAdj g) [a] a m z' hpath hadj hznot
      rcases H b h with h1 | h1
      · exact absurd h1.symm hab
      · exact h1
    obtain ⟨r, hr⟩ := bfsLoop_complete g b ((bfsIds g).length + 2)
      [⟨a, [], [a]⟩] [a]
      (by
        have := bfsUnseen_le g [a]
        simp only [List.length_cons, List.length_nil]
        omega)
      (by intro e he; rw [List.mem_singleton.mp he]; exact List.mem_singleton.mpr rfl)
      (by
        intro u hu
        exact Or.inl ⟨⟨a, [], [a]⟩, List.mem_singleton.mpr rfl,
          (List.mem_singleton.mp hu).symm⟩)
      (by
        intro hb
        exact absurd (List.mem_singleton.mp hb).symm hab)
      (Or.inr ⟨⟨a, [], [a]⟩, List.mem_singleton.mpr rfl, havoid⟩)
    refine ⟨r, ?_⟩
    unfold findPath
    rw [if_neg hab, if_neg (by simp [hns])]
    exact hr

/-- The reconstruction loop only prepends, so the last path element is the
node it started from (the destination). -/
theorem reconstructPath_getLast (previous : List (String × Option String)) :
    ∀ (fuel : Nat) (cur : String) (acc : List String),
      (reconstructPath previous fuel cur acc).getLast? = (cur :: acc).getLast? := by
  intro fuel
  induction fuel with
  | zero => intro cur acc; rfl
  | succ f ih =>
    intro cur acc
    cases hm : mapGet previous cur with
    | none => simp only [reconstructPath, hm]
    | some o =>
      cases o with
      | none => simp only [reconstructPath, hm]
      | some nxt =>
        simp only [reconstructPath, hm, ih]
        exact List.getLast?_cons_cons

/-- A successful `findShortestPath` reply runs from the requested start node
to the requested end node: the head is checked against the start explicitly,
and the reconstruction makes the destination the last element. -/
theorem findShortestPath_endpoints (g : Graph) (c d : String) (r : PathResult)
    (h : findShortestPath g c d = some r) :
    r.path.head? = some c ∧ r.path.getLast? = some d := by
  unfold findShortestPath at h
  split at h
  · exact absurd h (by simp)
  · simp only at h
    split at h
    · injection h with h
      rw [← h]
      refine ⟨by assumption, ?_⟩
      exact reconstructPath_getLast _ _ _ _
    · exact absurd h (by simp)

/-! ### Completeness of the Dijkstra solver -/

theorem insertEntry_mem (x y : String × WithTop ℚ)
    (l : List (String × WithTop ℚ)) :
    y ∈ insertEntry x l ↔ y = x ∨ y ∈ l := by
  induction l with
  | nil => simp [insertEntry]
  | cons z zs ih =>
    unfold insertEntry
    by_cases h : z.2 ≤ x.2
    · rw [if_pos h]
      simp only [List.mem_cons, ih]
      tauto
    · rw [if_neg h]
      simp only [List.mem_cons]

theorem insertEntry_length (x : String × WithTop ℚ)
    (l : List (String × WithTop ℚ)) :
    (insertEntry x l).length = l.length + 1 := by
  induction l with
  | nil => rfl
  | cons z zs ih =>
    unfold insertEntry
    by_cases h : z.2 ≤ x.2
    · rw [if_pos h]
      simp [ih]
    · rw [if_neg h]
      simp

theorem sortQueue_mem (q : List (String × WithTop ℚ)) (x : String × WithTop ℚ) :
    x ∈ sortQueue q ↔ x ∈ q := by
  suffices H : ∀ (l acc : List (String × WithTop ℚ)),
      x ∈ l.foldl (fun a e => insertEntry e a) acc ↔ x ∈ acc ∨ x ∈ l by
    unfold sortQueue
    rw [H]
    simp
  intro l
  induction l with
  | nil => intro acc; simp
  | cons e t ih =>
    intro acc
    rw [List.foldl_cons, ih, insertEntry_mem]
    simp only [List.mem_cons]
    tauto

theorem sortQueue_length (q : List (String × WithTop ℚ)) :
    (sortQueue q).length = q.length := by
  suffices H : ∀ (l acc : List (String × WithTop ℚ)),
      (l.foldl (fun a e => insertEntry e a) acc).length = acc.length + l.length by
    unfold sortQueue
    rw [H]
    simp
  intro l
  induction l with
  | nil => intro acc; rfl
  | cons e t ih =>
    intro acc
    rw [List.foldl_cons, ih, insertEntry_length]
    simp only [List.length_cons]
    omega

theorem nodeMapGet_isSome_iff (nodes : List GraphNode) (x : String) :
    (nodeMapGet nodes x).isSome = true ↔ ∃ n ∈ nodes, n.id = x := by
  suffices H : ∀ (l : List GraphNode) (acc : Option GraphNode),
      (l.foldl (fun acc n => if n.id = x then some n else acc) acc).isSome = true ↔
        acc.isSome = true ∨ ∃ n ∈ l, n.id = x by
    unfold nodeMapGet
    rw [H]
    simp
  intro l
  induction l with
  | nil => intro acc; simp
  | cons n t ih =>
    intro acc
    rw [List.foldl_cons]
    by_cases h : n.id = x
    · rw [if_pos h, ih]
      constructor
      · intro _
        exact Or.inr ⟨n, List.mem_cons_self .., h⟩
      · intro _
        exact Or.inl rfl
    · rw [if_neg h, ih]
      constructor
      · rintro (ha | ⟨m, hm, hid⟩)
        · exact Or.inl ha
        · exact Or.inr ⟨m, List.mem_cons_of_mem _ hm, hid⟩
      · rintro (ha | ⟨m, hm, hid⟩)
        · exact Or.inl ha
        · rcases List.mem_cons.mp hm with hm | hm
          · exact absurd (hm ▸ hid) h
          · exact Or.inr ⟨m, hm, hid⟩

theorem nodeDeclared_iff_mem_ids (g : Graph) (x : String) :
    nodeDeclared g x ↔ x ∈ g.nodes.map GraphNode.id := by
  rw [nodeDeclared, nodeMapGet_isSome_iff, List.mem_map]

/-- Case analysis of one relaxation: either nothing changes, or the
neighbour is unvisited with both distance entries present, the new distance
is strictly smaller, and the three state components update. -/
theorem relaxStep_cases (cur : String) (s : DijkstraState) (nb : String × ℚ) :
    relaxStep cur s nb = s ∨
      (nb.1 ∉ s.visited ∧ ∃ dc dn, mapGet s.distances cur = some dc ∧
        mapGet s.distances nb.1 = some dn ∧ dc + (nb.2 : WithTop ℚ) < dn ∧
        dc ≠ ⊤ ∧
        relaxStep cur s nb =
          { s with
            distances := mapSet s.distances nb.1 (dc + (nb.2 : WithTop ℚ))
            previous := mapSet s.previous nb.1 (some cur)
            queue := s.queue ++ [(nb.1, dc + (nb.2 : WithTop ℚ))] }) := by
  unfold relaxStep
  by_cases hv : nb.1 ∈ s.visited
  · rw [if_pos hv]; exact Or.inl rfl
  · rw [if_neg hv]
    cases h1 : mapGet s.distances cur with
    | none => exact Or.inl rfl
    | some dc =>
      cases h2 : mapGet s.distances nb.1 with
      | none => exact Or.inl rfl
      | some dn =>
        dsimp only
        by_cases hlt : dc + (nb.2 : WithTop ℚ) < dn
        · rw [if_pos hlt]
          refine Or.inr ⟨hv, dc, dn, rfl, rfl, hlt, ?_, rfl⟩
          intro htop
          rw [htop] at hlt
          rw [WithTop.add_eq_top.mpr (Or.inl rfl)] at hlt
          exact absurd hlt not_top_lt
        · rw [if_neg hlt]; exact Or.inl rfl

theorem relaxStep_visited (cur : String) (s : DijkstraState) (nb : String × ℚ) :
    (relaxStep cur s nb).visited = s.visited := by
  rcases relaxStep_cases cur s nb with h | ⟨_, dc, dn, _, _, _, _, h⟩ <;> rw [h]

theorem relaxFold_visited (cur : String) :
    ∀ (ns : List (String × ℚ)) (s : DijkstraState),
      (ns.foldl (relaxStep cur) s).visited = s.visited := by
  intro ns
  induction ns with
  | nil => intro s; rfl
  | cons nb rest ih =>
    intro s
    rw [List.foldl_cons, ih, relaxStep_visited]

theorem relaxStep_queue_mono (cur : String) (s : DijkstraState) (nb : String × ℚ)
    (p : String × WithTop ℚ) (hp : p ∈ s.queue) :
    p ∈ (relaxStep cur s nb).queue := by
  rcases relaxStep_cases cur s nb with h | ⟨_, dc, dn, _, _, _, _, h⟩ <;> rw [h]
  · exact hp
  · exact List.mem_append_left _ hp

theorem relaxFold_queue_mono (cur : String) :
    ∀ (ns : List (String × ℚ)) (s : DijkstraState) (p : String × WithTop ℚ),
      p ∈ s.queue → p ∈ (ns.foldl (relaxStep cur) s).queue := by
  intro ns
  induction ns with
  | nil => intro s p hp; exact hp
  | cons nb rest ih =>
    intro s p hp
    rw [List.foldl_cons]
    exact ih _ p (relaxStep_queue_mono cur s nb p hp)

theorem relaxFold_queue_len (cur : String) :
    ∀ (ns : List (String × ℚ)) (s : DijkstraState),
      (ns.foldl (relaxStep cur) s).queue.length ≤ s.queue.length + ns.length := by
  intro ns
  induction ns with
  | nil => intro s; simp
  | cons nb rest ih =>
    intro s
    rw [List.foldl_cons]
    refine le_trans (ih _) ?_
    have : (relaxStep cur s nb).queue.length ≤ s.queue.length + 1 := by
      rcases relaxStep_cases cur s nb with h | ⟨_, dc, dn, _, _, _, _, h⟩ <;> rw [h]
      · omega
      · simp
    simp only [List.length_cons]
    omega

theorem relaxStep_prev_frozen (cur : String) (s : DijkstraState)
    (nb : String × ℚ) (x : String) (hx : x ∈ s.visited) :
    mapGet (relaxStep cur s nb).previous x = mapGet s.previous x := by
  rcases relaxStep_cases cur s nb with h | ⟨hnv, dc, dn, _, _, _, _, h⟩ <;> rw [h]
  · rw [mapGet_mapSet]
    rw [if_neg]
    intro hEq
    exact hnv (hEq ▸ hx)

theorem relaxFold_prev_frozen (cur : String) :
    ∀ (ns : List (String × ℚ)) (s : DijkstraState) (x : String),
      x ∈ s.visited →
      mapGet (ns.foldl (relaxStep cur) s).previous x = mapGet s.previous x := by
  intro ns
  induction ns with
  | nil => intro s x _; rfl
  | cons nb rest ih =>
    intro s x hx
    rw [List.foldl_cons, ih _ x (by rw [relaxStep_visited]; exact hx),
      relaxStep_prev_frozen cur s nb x hx]

theorem relaxStep_dist_frozen (cur : String) (s : DijkstraState)
    (nb : String × ℚ) (x : String) (hx : x ∈ s.visited) :
    mapGet (relaxStep cur s nb).distances x = mapGet s.distances x := by
  rcases relaxStep_cases cur s nb with h | ⟨hnv, dc, dn, _, _, _, _, h⟩ <;> rw [h]
  · rw [mapGet_mapSet]
    rw [if_neg]
    intro hEq
    exact hnv (hEq ▸ hx)

theorem relaxFold_dist_frozen (cur : String) :
    ∀ (ns : List (String × ℚ)) (s : DijkstraState) (x : String),
      x ∈ s.visited →
      mapGet (ns.foldl (relaxStep cur) s).distances x = mapGet s.distances x := by
  intro ns
  induction ns with
  | nil => intro s x _; rfl
  | cons nb rest ih =>
    intro s x hx
    rw [List.foldl_cons, ih _ x (by rw [relaxStep_visited]; exact hx),
      relaxStep_dist_frozen cur s nb x hx]

/-- Reconstruction reads only the previous-links of the closed set the
start node lives in, so two previous maps that agree there reconstruct
identically. -/
theorem reconstruct_congr (prev prev' : List (String × Option String))
    (V : List String)
    (hfroz : ∀ x ∈ V, mapGet prev' x = mapGet prev x)
    (hclosed : ∀ x ∈ V, ∀ m, mapGet prev x = some (some m) → m ∈ V) :
    ∀ (fuel : Nat) (v : String) (acc : List String), v ∈ V →
      reconstructPath prev' fuel v acc = reconstructPath prev fuel v acc := by
  intro fuel
  induction fuel with
  | zero => intro v acc _; rfl
  | succ f ih =>
    intro v acc hv
    have hfr : mapGet prev' v = mapGet prev v := hfroz v hv
    cases hm : mapGet prev v with
    | none => simp only [reconstructPath, hfr, hm]
    | some o =>
      cases o with
      | none => simp only [reconstructPath, hfr, hm]
      | some nxt =>
        simp only [reconstructPath, hfr, hm]
        exact ih nxt (v :: acc) (hclosed v hv nxt hm)

theorem totalPairs_adjPush (adj : List (String × List (String × ℚ)))
    (k : String) (v : String × ℚ) :
    totalPairs (adjPush adj k v) = totalPairs adj + 1 := by
  induction adj with
  | nil => simp [adjPush, totalPairs]
  | cons hd t ih =>
    obtain ⟨k0, vs⟩ := hd
    unfold adjPush
    by_cases h : k0 = k
    · rw [if_pos h]
      simp only [totalPairs, List.map_cons, List.sum_cons, List.length_append,
        List.length_singleton]
      omega
    · rw [if_neg h]
      simp only [totalPairs, List.map_cons, List.sum_cons] at ih ⊢
      omega

theorem totalPairs_build (edges : List GraphEdge) :
    totalPairs (buildAdjacencyList edges) = 2 * edges.length := by
  suffices H : ∀ (l : List GraphEdge) (adj0 : List (String × List (String × ℚ))),
      totalPairs (l.foldl (fun adj e =>
        adjPush (adjPush adj e.fromId (e.toId, e.weight)) e.toId
          (e.fromId, e.weight)) adj0) = totalPairs adj0 + 2 * l.length by
    have := H edges []
    simp only [totalPairs, List.map_nil, List.sum_nil, Nat.zero_add] at this
    exact this
  intro l
  induction l with
  | nil => intro adj0; simp
  | cons e t ih =>
    intro adj0
    rw [List.foldl_cons, ih, totalPairs_adjPush, totalPairs_adjPush,
      List.length_cons]
    omega

theorem sum_deg_le_totalPairs :
    ∀ (adj : List (String × List (String × ℚ))) (S : Finset String),
      S.sum (fun x => ((mapGet adj x).getD []).length) ≤ totalPairs adj := by
  intro adj
  induction adj with
  | nil =>
    intro S
    simp [mapGet, totalPairs]
  | cons hd t ih =>
    obtain ⟨k, vs⟩ := hd
    intro S
    have hf : ∀ x ∈ S, x ≠ k →
        ((mapGet ((k, vs) :: t) x).getD []).length =
          ((mapGet t x).getD []).length := by
      intro x _ hx
      rw [mapGet, if_neg (fun h => hx h.symm)]
    by_cases hk : k ∈ S
    · rw [← Finset.sum_erase_add S _ hk]
      have h1 : (S.erase k).sum
            (fun x => ((mapGet ((k, vs) :: t) x).getD []).length) =
          (S.erase k).sum (fun x => ((mapGet t x).getD []).length) :=
        Finset.sum_congr rfl
          (fun x hx => hf x (Finset.mem_of_mem_erase hx)
            (Finset.ne_of_mem_erase hx))
      have h2 : ((mapGet ((k, vs) :: t) k).getD []).length = vs.length := by
        rw [mapGet, if_pos rfl]
        rfl
      rw [h1, h2]
      have h3 := ih (S.erase k)
      simp only [totalPairs, List.map_cons, List.sum_cons] at h3 ⊢
      omega
    · rw [Finset.sum_congr rfl (fun x hx => hf x hx (fun hEq => hk (hEq ▸ hx)))]
      refine le_trans (ih S) ?_
      simp only [totalPairs, List.map_cons, List.sum_cons]
      omega

theorem dijUnseen_le (g : Graph) (adj : List (String × List (String × ℚ)))
    (visited : List String) :
    dijUnseen g adj visited ≤ g.nodes.length + totalPairs adj := by
  unfold dijUnseen
  rw [Finset.sum_add_distrib]
  have hcard :
      (((g.nodes.map GraphNode.id).toFinset) \ visited.toFinset).card ≤
        g.nodes.length := by
    refine le_trans (Finset.card_le_card Finset.sdiff_subset) ?_
    refine le_trans (List.toFinset_card_le _) ?_
    rw [List.length_map]
  have hsum := sum_deg_le_totalPairs adj
    (((g.nodes.map GraphNode.id).toFinset) \ visited.toFinset)
  have hone :
      (((g.nodes.map GraphNode.id).toFinset) \ visited.toFinset).sum
          (fun _ => 1) =
        (((g.nodes.map GraphNode.id).toFinset) \ visited.toFinset).card := by
    rw [Finset.sum_const, smul_eq_mul, mul_one]
  omega

theorem dijUnseen_pop (g : Graph) (adj : List (String × List (String × ℚ)))
    (visited : List String) (cur : String)
    (hid : cur ∈ g.nodes.map GraphNode.id) (hnv : cur ∉ visited) :
    dijUnseen g adj (visited ++ [cur]) +
        (1 + ((mapGet adj cur).getD []).length) =
      dijUnseen g adj visited := by
  unfold dijUnseen
  have hset : ((g.nodes.map GraphNode.id).toFinset \ (visited ++ [cur]).toFinset) =
      ((g.nodes.map GraphNode.id).toFinset \ visited.toFinset).erase cur := by
    ext y
    simp only [List.toFinset_append, Finset.mem_sdiff, Finset.mem_erase,
      Finset.mem_union, List.toFinset_cons, List.toFinset_nil,
      Finset.mem_insert, List.mem_toFinset, Finset.not_mem_empty, or_false]
    tauto
  rw [hset]
  exact Finset.sum_erase_add _ _
    (Finset.mem_sdiff.mpr ⟨List.mem_toFinset.mpr hid,
      fun hm => hnv (List.mem_toFinset.mp hm)⟩)

/-- One relaxation preserves the state invariants (the processed node is
already visited). -/
theorem relaxStep_core (g : Graph) (adj : List (String × List (String × ℚ)))
    (c cur : String) (s : DijkstraState) (nb : String × ℚ)
    (hcv : cur ∈ s.visited) (h : DijkCore g adj c s) :
    DijkCore g adj c (relaxStep cur s nb) := by
  rcases relaxStep_cases cur s nb with hEq | ⟨hnv, dc, dn, hdc, hdn, hlt, hdct, hEq⟩
  · rw [hEq]; exact h
  · have hsum : dc + (nb.2 : WithTop ℚ) ≠ ⊤ :=
      WithTop.add_ne_top.mpr ⟨hdct, WithTop.coe_ne_top⟩
    have hne_c : nb.1 ≠ c := fun hEq2 => hnv (hEq2 ▸ h.cvis)
    rw [hEq]
    refine ⟨?_, ?_, ?_, ?_, ?_, ?_, ?_, ?_, ?_, ?_, ?_⟩ <;> dsimp only
    · exact h.nodup
    · exact h.vn
    · intro x hx
      obtain ⟨dv, hdv⟩ := h.distKeys x hx
      by_cases hxe : nb.1 = x
      · exact ⟨dc + nb.2, by rw [mapGet_mapSet, if_pos hxe]⟩
      · exact ⟨dv, by rw [mapGet_mapSet, if_neg hxe]; exact hdv⟩
    · intro x dv hdv
      rw [mapGet_mapSet] at hdv
      by_cases hxe : nb.1 = x
      · exact hxe ▸ h.distKeysRev nb.1 dn hdn
      · rw [if_neg hxe] at hdv
        exact h.distKeysRev x dv hdv
    · intro p hp
      rcases List.mem_append.mp hp with hp | hp
      · obtain ⟨dv, hdv, hdvt⟩ := h.finq p hp
        by_cases hxe : nb.1 = p.1
        · exact ⟨dc + nb.2, by rw [mapGet_mapSet, if_pos hxe], hsum⟩
        · exact ⟨dv, by rw [mapGet_mapSet, if_neg hxe]; exact hdv, hdvt⟩
      · obtain rfl := List.mem_singleton.mp hp
        exact ⟨dc + nb.2, by simp [mapGet_mapSet], hsum⟩
    · intro x dv hdv hdvt
      by_cases hxe : nb.1 = x
      · right
        exact ⟨(nb.1, dc + nb.2),
          List.mem_append_right _ (List.mem_singleton.mpr rfl), hxe⟩
      · rw [mapGet_mapSet, if_neg hxe] at hdv
        rcases h.distVis x dv hdv hdvt with hx | ⟨p, hp, hpx⟩
        · exact Or.inl hx
        · exact Or.inr ⟨p, List.mem_append_left _ hp, hpx⟩
    · intro p hp
      rcases List.mem_append.mp hp with hp | hp
      · by_cases hxe : nb.1 = p.1
        · exact Or.inr ⟨cur, hcv, by rw [mapGet_mapSet, if_pos hxe]⟩
        · rcases h.qprev p hp with hc1 | ⟨m, hm, hlink⟩
          · exact Or.inl hc1
          · exact Or.inr ⟨m, hm, by rw [mapGet_mapSet, if_neg hxe]; exact hlink⟩
      · obtain rfl := List.mem_singleton.mp hp
        exact Or.inr ⟨cur, hcv, by simp [mapGet_mapSet]⟩
    · intro v m hm
      rw [mapGet_mapSet] at hm
      by_cases hxe : nb.1 = v
      · rw [if_pos hxe] at hm
        injection hm with hm
        injection hm with hm
        exact hm ▸ hcv
      · rw [if_neg hxe] at hm
        exact h.prevok v m hm
    · rw [mapGet_mapSet, if_neg hne_c]
      exact h.prevc
    · exact h.cvis
    · have hfroz : ∀ x ∈ s.visited,
          mapGet (mapSet s.previous nb.1 (some cur)) x = mapGet s.previous x := by
        intro x hx
        rw [mapGet_mapSet, if_neg (fun hEq2 : nb.1 = x => hnv (hEq2.symm ▸ hx))]
      have hclosed : ∀ x ∈ s.visited, ∀ m,
          mapGet s.previous x = some (some m) → m ∈ s.visited :=
        fun x _ m hm => h.prevok x m hm
      intro v hv fuel acc hfuel
      rw [reconstruct_congr s.previous _ s.visited hfroz hclosed fuel v acc hv]
      exact h.chain v hv fuel acc hfuel

theorem relaxFold_core (g : Graph) (adj : List (String × List (String × ℚ)))
    (c cur : String) :
    ∀ (ns : List (String × ℚ)) (s : DijkstraState), cur ∈ s.visited →
      DijkCore g adj c s → DijkCore g adj c (ns.foldl (relaxStep cur) s) := by
  intro ns
  induction ns with
  | nil => intro s _ h; exact h
  | cons nb rest ih =>
    intro s hcv h
    rw [List.foldl_cons]
    exact ih _ (by rw [relaxStep_visited]; exact hcv)
      (relaxStep_core g adj c cur s nb hcv h)

/-- After the neighbour fold, every declared neighbour of the processed node
is visited or queued. -/
theorem relaxFold_front (g : Graph) (adj : List (String × List (String × ℚ)))
    (c cur : String) :
    ∀ (ns : List (String × ℚ)) (s : DijkstraState),
      cur ∈ s.visited → DijkCore g adj c s →
      (∃ dv, mapGet s.distances cur = some dv ∧ dv ≠ ⊤) →
      (∀ nb ∈ ns, nodeDeclared g nb.1) →
      ∀ nb ∈ ns, nb.1 ∈ (ns.foldl (relaxStep cur) s).visited ∨
        ∃ p ∈ (ns.foldl (relaxStep cur) s).queue, p.1 = nb.1 := by
  intro ns
  induction ns with
  | nil => intro s _ _ _ _ nb h; exact absurd h (List.not_mem_nil _)
  | cons nb0 rest ih =>
    intro s hcv hcore hfin hdecl nb hnb
    rw [List.foldl_cons]
    rcases List.mem_cons.mp hnb with hnb | hnb
    · subst hnb
      have hstep : nb.1 ∈ (relaxStep cur s nb).visited ∨
          ∃ p ∈ (relaxStep cur s nb).queue, p.1 = nb.1 := by
        unfold relaxStep
        by_cases hv : nb.1 ∈ s.visited
        · rw [if_pos hv]
          exact Or.inl hv
        · rw [if_neg hv]
          obtain ⟨dvc, hdvc, hdvct⟩ := hfin
          obtain ⟨dn, hdn⟩ := hcore.distKeys nb.1 (hdecl nb (List.mem_cons_self ..))
          rw [hdvc, hdn]
          dsimp only
          by_cases hlt : dvc + (nb.2 : WithTop ℚ) < dn
          · rw [if_pos hlt]
            exact Or.inr ⟨(nb.1, dvc + nb.2),
              List.mem_append_right _ (List.mem_singleton.mpr rfl), rfl⟩
          · rw [if_neg hlt]
            have hdnt : dn ≠ ⊤ := by
              intro hEq
              rw [hEq] at hlt
              exact hlt (lt_top_iff_ne_top.mpr
                (WithTop.add_ne_top.mpr ⟨hdvct, WithTop.coe_ne_top⟩))
            exact hcore.distVis nb.1 dn hdn hdnt
      rcases hstep with hx | ⟨p, hp, hpx⟩
      · left
        rw [relaxFold_visited]
        exact hx
      · right
        exact ⟨p, relaxFold_queue_mono cur rest _ p hp, hpx⟩
    · exact ih _ (by rw [relaxStep_visited]; exact hcv)
        (relaxStep_core g adj c cur s nb0 hcv hcore)
        (by rw [relaxStep_dist_frozen cur s nb0 cur hcv]; exact hfin)
        (fun nb' h' => hdecl nb' (List.mem_cons_of_mem _ h')) nb hnb

/-- Path repair for the Dijkstra frontier: every neighbour of a visited node
is visited or queued, so an old avoiding path to `z` either ends in the new
visited set, restarts at a queue witness, or stays outside the visited set. -/
theorem avoidReach_repairD (r : String → String → Prop) (S S' : List String)
    (QW : String → Prop)
    (hFront : ∀ u ∈ S', ∀ v, r u v → v ∈ S' ∨ QW v) :
    ∀ u z, AvoidReach r S u z →
      z ∈ S' ∨ (∃ u', QW u' ∧ AvoidReach r S' u' z) ∨
        (u ∉ S' ∧ AvoidReach r S' u z) := by
  intro u z h
  induction h with
  | refl a =>
    by_cases ha : a ∈ S'
    · exact Or.inl ha
    · exact Or.inr (Or.inr ⟨ha, AvoidReach.refl a⟩)
  | head a b c' hab _ _ ih =>
    rcases ih with h | h | ⟨hbS', hbz⟩
    · exact Or.inl h
    · exact Or.inr (Or.inl h)
    · by_cases ha : a ∈ S'
      · rcases hFront a ha b hab with hb | hb
        · exact absurd hb hbS'
        · exact Or.inr (Or.inl ⟨b, hb, hbz⟩)
      · exact Or.inr (Or.inr ⟨ha, AvoidReach.head a b c' hab hbS' hbz⟩)

/-- Appending a just-popped node to the visited list keeps reconstruction
anchored at the start: the new node is the start itself or carries a
previous-link into the old visited set. -/
theorem chain_extend (c : String) (s : DijkstraState) (cur : String)
    (hchain : ∀ v ∈ s.visited, ∀ (fuel : Nat) (acc : List String),
      s.visited.length ≤ fuel →
      (reconstructPath s.previous fuel v acc).head? = some c)
    (hprevc : mapGet s.previous c = some none)
    (hlink : cur = c ∨ ∃ m ∈ s.visited, mapGet s.previous cur = some (some m)) :
    ∀ v ∈ s.visited ++ [cur], ∀ (fuel : Nat) (acc : List String),
      (s.visited ++ [cur]).length ≤ fuel →
      (reconstructPath s.previous fuel v acc).head? = some c := by
  intro v hv fuel acc hfuel
  rw [List.length_append, List.length_singleton] at hfuel
  rcases List.mem_append.mp hv with hv | hv
  · exact hchain v hv fuel acc (by omega)
  · obtain rfl := List.mem_singleton.mp hv
    cases fuel with
    | zero => exact absurd hfuel (by omega)
    | succ f =>
      rcases hlink with rfl | ⟨m, hm, hlm⟩
      · simp [reconstructPath, hprevc]
      · rw [reconstructPath, hlm]
        exact hchain m hm f (v :: acc) (by omega)

/-- Processing one popped node: the state invariants survive the neighbour
fold and the frontier invariant holds afterwards for all visited nodes. -/
theorem dijkstra_step (g : Graph) (c cur : String) (t : DijkstraState)
    (hwf : ∀ e ∈ g.edges, nodeDeclared g e.fromId ∧ nodeDeclared g e.toId)
    (hcv : cur ∈ t.visited)
    (hfin : ∃ dv, mapGet t.distances cur = some dv ∧ dv ≠ ⊤)
    (hcore : DijkCore g (buildAdjacencyList g.edges) c t)
    (hfrontm : ∀ u ∈ t.visited, u ≠ cur →
      ∀ nb ∈ (mapGet (buildAdjacencyList g.edges) u).getD [],
        nb.1 ∈ t.visited ∨ ∃ p ∈ t.queue, p.1 = nb.1) :
    DijkCore g (buildAdjacencyList g.edges) c
        (((mapGet (buildAdjacencyList g.edges) cur).getD []).foldl
          (relaxStep cur) t) ∧
      DijkFront (buildAdjacencyList g.edges)
        (((mapGet (buildAdjacencyList g.edges) cur).getD []).foldl
          (relaxStep cur) t) := by
  have hdecl : ∀ nb ∈ (mapGet (buildAdjacencyList g.edges) cur).getD [],
      nodeDeclared g nb.1 := by
    intro nb hnb
    obtain ⟨e, he, hdir, _⟩ :=
      buildAdj_mem g.edges cur nb.1 nb.2 (by rwa [Prod.mk.eta])
    rcases hdir with ⟨hf, ht⟩ | ⟨hf, ht⟩
    · exact ht ▸ (hwf e he).2
    · exact hf ▸ (hwf e he).1
  have hcore2 := relaxFold_core g (buildAdjacencyList g.edges) c cur
    ((mapGet (buildAdjacencyList g.edges) cur).getD []) t hcv hcore
  refine ⟨hcore2, ?_⟩
  intro u hu nb hnb
  rw [relaxFold_visited] at hu
  by_cases huc : u = cur
  · subst huc
    exact relaxFold_front g (buildAdjacencyList g.edges) c u
      ((mapGet (buildAdjacencyList g.edges) u).getD []) t hcv hcore
      hfin hdecl nb hnb
  · rcases hfrontm u hu huc nb hnb with hx | ⟨p, hp, hpx⟩
    · left
      rw [relaxFold_visited]
      exact hx
    · right
      exact ⟨p, relaxFold_queue_mono cur _ t p hp, hpx⟩

/-- A duplicate-free list of declared node ids is no longer than the node
list. -/
theorem visited_length_le (g : Graph) (visited : List String)
    (hnd : visited.Nodup) (hvn : ∀ v ∈ visited, nodeDeclared g v) :
    visited.length ≤ g.nodes.length := by
  have h1 : visited.toFinset.card = visited.length :=
    List.toFinset_card_of_nodup hnd
  have h2 : visited.toFinset ⊆ (g.nodes.map GraphNode.id).toFinset := by
    intro x hx
    exact List.mem_toFinset.mpr
      ((nodeDeclared_iff_mem_ids g x).mp (hvn x (List.mem_toFinset.mp hx)))
  calc visited.length = visited.toFinset.card := h1.symm
    _ ≤ ((g.nodes.map GraphNode.id).toFinset).card := Finset.card_le_card h2
    _ ≤ (g.nodes.map GraphNode.id).length := List.toFinset_card_le _
    _ = g.nodes.length := List.length_map ..

/-- Keys of a constant-initialised map: every listed node id (and every key
of the base map) has an entry. -/
theorem foldSet_keys {α : Type} (val : α) :
    ∀ (nodes : List GraphNode) (m0 : List (String × α)) (x : String),
      (∃ n ∈ nodes, n.id = x) ∨ (∃ v, mapGet m0 x = some v) →
      ∃ v, mapGet (nodes.foldl (fun m nd => mapSet m nd.id val) m0) x = some v := by
  intro nodes
  induction nodes with
  | nil =>
    intro m0 x h
    rcases h with ⟨n, hn, _⟩ | h
    · exact absurd hn (List.not_mem_nil n)
    · exact h
  | cons nd t ih =>
    intro m0 x h
    rw [List.foldl_cons]
    refine ih _ x ?_
    rcases h with ⟨n, hn, hid⟩ | ⟨v, hv⟩
    · rcases List.mem_cons.mp hn with h1 | h1
      · refine Or.inr ⟨val, ?_⟩
        rw [mapGet_mapSet, if_pos (by rw [← hid, h1])]
      · exact Or.inl ⟨n, h1, hid⟩
    · by_cases hx : nd.id = x
      · exact Or.inr ⟨val, by rw [mapGet_mapSet, if_pos hx]⟩
      · exact Or.inr ⟨v, by rw [mapGet_mapSet, if_neg hx]; exact hv⟩

/-- Every key of a constant-initialised map is a listed node id or a key of
the base map. -/
theorem foldSet_keysRev {α : Type} (val : α) :
    ∀ (nodes : List GraphNode) (m0 : List (String × α)) (x : String) (v : α),
      mapGet (nodes.foldl (fun m nd => mapSet m nd.id val) m0) x = some v →
      (∃ n ∈ nodes, n.id = x) ∨ mapGet m0 x = some v := by
  intro nodes
  induction nodes with
  | nil =>
    intro m0 x v h
    exact Or.inr h
  | cons nd t ih =>
    intro m0 x v h
    rw [List.foldl_cons] at h
    rcases ih _ x v h with h1 | h1
    · obtain ⟨n, hn, hid⟩ := h1
      exact Or.inl ⟨n, List.mem_cons_of_mem _ hn, hid⟩
    · rw [mapGet_mapSet] at h1
      by_cases hx : nd.id = x
      · exact Or.inl ⟨nd, List.mem_cons_self .., hx⟩
      · rw [if_neg hx] at h1
        exact Or.inr h1

/-- Every value of a constant-initialised map is the constant (when the base
map also only holds it). -/
theorem foldSet_val {α : Type} (val : α) :
    ∀ (nodes : List GraphNode) (m0 : List (String × α)),
      (∀ n v, mapGet m0 n = some v → v = val) →
      ∀ n v,
        mapGet (nodes.foldl (fun m nd => mapSet m nd.id val) m0) n = some v →
        v = val := by
  intro nodes
  induction nodes with
  | nil =>
    intro m0 h
    exact h
  | cons nd t ih =>
    intro m0 h
    rw [List.foldl_cons]
    refine ih _ ?_
    intro n v hv
    rw [mapGet_mapSet] at hv
    by_cases hx : nd.id = n
    · rw [if_pos hx] at hv
      injection hv with hv
      exact hv.symm
    · rw [if_neg hx] at hv
      exact h n v hv

/-- Plain reachability is reachability avoiding the empty set. -/
theorem reflTransGen_avoid_nil (r : String → String → Prop) (a b : String)
    (h : Relation.ReflTransGen r a b) : AvoidReach r [] a b := by
  induction h with
  | refl => exact AvoidReach.refl a
  | tail _ hbc ih => exact AvoidReach.tail r [] a _ _ ih hbc (List.not_mem_nil _)

/-- One unfolding of the Dijkstra loop. -/
theorem dijkstraLoop_succ (adj : List (String × List (String × ℚ)))
    (endId : String) (fuel : Nat) (s : DijkstraState) :
    dijkstraLoop adj endId (fuel + 1) s =
      match sortQueue s.queue with
      | [] => s
      | cur :: rest =>
        if cur.1 ∈ s.visited then
          dijkstraLoop adj endId fuel { s with queue := rest }
        else
          let s1 : DijkstraState :=
            { s with visited := s.visited ++ [cur.1], queue := rest }
          if cur.1 = endId then s1
          else
            dijkstraLoop adj endId fuel
              (((mapGet adj cur.1).getD []).foldl (relaxStep cur.1) s1) := rfl

/-- Skipping an already-visited queue head preserves the state invariants. -/
theorem core_skip (g : Graph) (adj : List (String × List (String × ℚ)))
    (c : String) (s : DijkstraState) (cur : String × WithTop ℚ)
    (rest : List (String × WithTop ℚ))
    (hq : sortQueue s.queue = cur :: rest)
    (hv : cur.1 ∈ s.visited)
    (hcore : DijkCore g adj c s) :
    DijkCore g adj c { s with queue := rest } := by
  have hrestq : ∀ p ∈ rest, p ∈ s.queue := fun p hp =>
    (sortQueue_mem s.queue p).mp (by rw [hq]; exact List.mem_cons_of_mem _ hp)
  refine ⟨hcore.nodup, hcore.vn, hcore.distKeys, hcore.distKeysRev, ?_, ?_, ?_,
    hcore.prevok, hcore.prevc, hcore.cvis, hcore.chain⟩
  · intro p hp
    exact hcore.finq p (hrestq p hp)
  · intro x dv hdv hdvt
    rcases hcore.distVis x dv hdv hdvt with hx | ⟨p, hp, hpx⟩
    · exact Or.inl hx
    · have hpm : p ∈ cur :: rest := by
        rw [← hq]
        exact (sortQueue_mem s.queue p).mpr hp
      rcases List.mem_cons.mp hpm with hpc | hpr
      · refine Or.inl ?_
        rw [← hpx, hpc]
        exact hv
      · exact Or.inr ⟨p, hpr, hpx⟩
  · intro p hp
    exact hcore.qprev p (hrestq p hp)

/-- Moving a fresh queue head into the visited list preserves the state
invariants. -/
theorem core_pop (g : Graph) (adj : List (String × List (String × ℚ)))
    (c : String) (s : DijkstraState) (cur : String × WithTop ℚ)
    (rest : List (String × WithTop ℚ))
    (hq : sortQueue s.queue = cur :: rest)
    (hv : cur.1 ∉ s.visited)
    (hcore : DijkCore g adj c s) :
    DijkCore g adj c
      { s with visited := s.visited ++ [cur.1], queue := rest } := by
  have hcurq : cur ∈ s.queue :=
    (sortQueue_mem s.queue cur).mp (by rw [hq]; exact List.mem_cons_self ..)
  have hrestq : ∀ p ∈ rest, p ∈ s.queue := fun p hp =>
    (sortQueue_mem s.queue p).mp (by rw [hq]; exact List.mem_cons_of_mem _ hp)
  obtain ⟨dvc, hdvc, _⟩ := hcore.finq cur hcurq
  have hcurd : nodeDeclared g cur.1 := hcore.distKeysRev cur.1 dvc hdvc
  refine ⟨?_, ?_, hcore.distKeys, hcore.distKeysRev, ?_, ?_, ?_, ?_,
    hcore.prevc, ?_, ?_⟩
  · rw [List.nodup_append]
    refine ⟨hcore.nodup, List.nodup_singleton _, ?_⟩
    intro x hx hx2
    rw [List.mem_singleton] at hx2
    exact hv (hx2 ▸ hx)
  · intro v hvv
    rcases List.mem_append.mp hvv with h | h
    · exact hcore.vn v h
    · rw [List.mem_singleton.mp h]
      exact hcurd
  · intro p hp
    exact hcore.finq p (hrestq p hp)
  · intro x dv hdv hdvt
    rcases hcore.distVis x dv hdv hdvt with hx | ⟨p, hp, hpx⟩
    · exact Or.inl (List.mem_append_left _ hx)
    · have hpm : p ∈ cur :: rest := by
        rw [← hq]
        exact (sortQueue_mem s.queue p).mpr hp
      rcases List.mem_cons.mp hpm with hpc | hpr
      · refine Or.inl (List.mem_append_right _ ?_)
        rw [List.mem_singleton, ← hpx, hpc]
      · exact Or.inr ⟨p, hpr, hpx⟩
  · intro p hp
    rcases hcore.qprev p (hrestq p hp) with h | ⟨m, hm, hlm⟩
    · exact Or.inl h
    · exact Or.inr ⟨m, List.mem_append_left _ hm, hlm⟩
  · intro v m hm
    exact List.mem_append_left _ (hcore.prevok v m hm)
  · exact List.mem_append_left _ hcore.cvis
  · exact chain_extend c s cur.1 hcore.chain hcore.prevc (hcore.qprev cur hcurq)

/-- What completeness needs of the loop result: the destination is visited,
the visited list stays duplicate-free over declared node ids, and
reconstruction from every visited node leads back to the start. -/
def DijkDone (g : Graph) (c d : String) (s : DijkstraState) : Prop :=
  d ∈ s.visited ∧ s.visited.Nodup ∧ (∀ v ∈ s.visited, nodeDeclared g v) ∧
    ∀ v ∈ s.visited, ∀ (fuel : Nat) (acc : List String),
      s.visited.length ≤ fuel →
      (reconstructPath s.previous fuel v acc).head? = some c

/-- The Dijkstra main loop visits the destination whenever the destination
is already visited or some queued node starts an adjacency path to it that
avoids the visited set, given enough fuel. -/
theorem dijkstraLoop_done (g : Graph) (c d : String)
    (hwf : ∀ e ∈ g.edges, nodeDeclared g e.fromId ∧ nodeDeclared g e.toId) :
    ∀ (fuel : Nat) (s : DijkstraState),
      s.queue.length + dijUnseen g (buildAdjacencyList g.edges) s.visited < fuel →
      DijkCore g (buildAdjacencyList g.edges) c s →
      DijkFront (buildAdjacencyList g.edges) s →
      (d ∈ s.visited ∨ ∃ p ∈ s.queue,
        AvoidReach (dijAdjMem (buildAdjacencyList g.edges)) s.visited p.1 d) →
      DijkDone g c d (dijkstraLoop (buildAdjacencyList g.edges) d fuel s) := by
  intro fuel
  induction fuel with
  | zero =>
    intro s hM
    exact absurd hM (Nat.not_lt_zero _)
  | succ f ih =>
    intro s hM hcore hfront hrinv
    unfold dijkstraLoop
    cases hq : sortQueue s.queue with
    | nil =>
      dsimp only
      rcases hrinv with hd | ⟨p, hp, _⟩
      · exact ⟨hd, hcore.nodup, hcore.vn, hcore.chain⟩
      · have hpm : p ∈ ([] : List (String × WithTop ℚ)) := by
          rw [← hq]
          exact (sortQueue_mem s.queue p).mpr hp
        exact absurd hpm (List.not_mem_nil p)
    | cons cur rest =>
      dsimp only
      have hcurq : cur ∈ s.queue :=
        (sortQueue_mem s.queue cur).mp (by rw [hq]; exact List.mem_cons_self ..)
      have hrestq : ∀ p ∈ rest, p ∈ s.queue := fun p hp =>
        (sortQueue_mem s.queue p).mp (by rw [hq]; exact List.mem_cons_of_mem _ hp)
      have hlen : rest.length + 1 = s.queue.length := by
        have h := sortQueue_length s.queue
        rw [hq] at h
        simpa using h
      by_cases hv : cur.1 ∈ s.visited
      · rw [if_pos hv]
        refine ih { s with queue := rest } ?_
          (core_skip g (buildAdjacencyList g.edges) c s cur rest hq hv hcore)
          ?_ ?_
        · dsimp only
          omega
        · intro u hu nb hnb
          rcases hfront u hu nb hnb with hx | ⟨p, hp, hpx⟩
          · exact Or.inl hx
          · have hpm : p ∈ cur :: rest := by
              rw [← hq]
              exact (sortQueue_mem s.queue p).mpr hp
            rcases List.mem_cons.mp hpm with hpc | hpr
            · refine Or.inl ?_
              rw [← hpx, hpc]
              exact hv
            · exact Or.inr ⟨p, hpr, hpx⟩
        · rcases hrinv with hd | ⟨p, hp, hpath⟩
          · exact Or.inl hd
          · have hF : ∀ u ∈ s.visited, ∀ v,
                dijAdjMem (buildAdjacencyList g.edges) u v →
                v ∈ s.visited ∨ ∃ p2 ∈ rest, p2.1 = v := by
              intro u hu v hr
              obtain ⟨w, hw⟩ := hr
              rcases hfront u hu (v, w) hw with hx | ⟨p2, hp2, hpv⟩
              · exact Or.inl hx
              · have hpv2 : p2.1 = v := hpv
                have hpm : p2 ∈ cur :: rest := by
                  rw [← hq]
                  exact (sortQueue_mem s.queue p2).mpr hp2
                rcases List.mem_cons.mp hpm with hpc | hpr
                · refine Or.inl ?_
                  rw [← hpv2, hpc]
                  exact hv
                · exact Or.inr ⟨p2, hpr, hpv2⟩
            rcases avoidReach_repairD (dijAdjMem (buildAdjacencyList g.edges))
                s.visited s.visited (fun x => ∃ p2 ∈ rest, p2.1 = x) hF
                p.1 d hpath with
              hd2 | ⟨u2, ⟨p2, hp2, hpu⟩, path2⟩ | ⟨hu, path2⟩
            · exact Or.inl hd2
            · refine Or.inr ⟨p2, hp2, ?_⟩
              rw [hpu]
              exact path2
            · have hpm : p ∈ cur :: rest := by
                rw [← hq]
                exact (sortQueue_mem s.queue p).mpr hp
              rcases List.mem_cons.mp hpm with hpc | hpr
              · refine absurd ?_ hu
                rw [hpc]
                exact hv
              · exact Or.inr ⟨p, hpr, path2⟩
      · rw [if_neg hv]
        have hcore1 := core_pop g (buildAdjacencyList g.edges) c s cur rest hq hv hcore
        obtain ⟨dvc, hdvc, hdvt⟩ := hcore.finq cur hcurq
        have hcurd : nodeDeclared g cur.1 := hcore.distKeysRev cur.1 dvc hdvc
        by_cases hcd : cur.1 = d
        · rw [if_pos hcd]
          refine ⟨?_, hcore1.nodup, hcore1.vn, hcore1.chain⟩
          refine List.mem_append_right _ ?_
          rw [List.mem_singleton, hcd]
        · rw [if_neg hcd]
          have hfrontm1 : ∀ u ∈ s.visited ++ [cur.1], u ≠ cur.1 →
              ∀ nb ∈ (mapGet (buildAdjacencyList g.edges) u).getD [],
                nb.1 ∈ s.visited ++ [cur.1] ∨ ∃ p ∈ rest, p.1 = nb.1 := by
            intro u hu hne nb hnb
            have hus : u ∈ s.visited := by
              rcases List.mem_append.mp hu with h | h
              · exact h
              · exact absurd (List.mem_singleton.mp h) hne
            rcases hfront u hus nb hnb with hx | ⟨p, hp, hpx⟩
            · exact Or.inl (List.mem_append_left _ hx)
            · have hpm : p ∈ cur :: rest := by
                rw [← hq]
                exact (sortQueue_mem s.queue p).mpr hp
              rcases List.mem_cons.mp hpm with hpc | hpr
              · refine Or.inl (List.mem_append_right _ ?_)
                rw [List.mem_singleton, ← hpx, hpc]
              · exact Or.inr ⟨p, hpr, hpx⟩
          have hstep := dijkstra_step g c cur.1
            { s with visited := s.visited ++ [cur.1], queue := rest } hwf
            (List.mem_append_right _ (List.mem_singleton.mpr rfl))
            ⟨dvc, hdvc, hdvt⟩ hcore1 hfrontm1
          refine ih (((mapGet (buildAdjacencyList g.edges) cur.1).getD []).foldl
              (relaxStep cur.1)
              { s with visited := s.visited ++ [cur.1], queue := rest })
            ?_ hstep.1 hstep.2 ?_
          · have hql := relaxFold_queue_len cur.1
              ((mapGet (buildAdjacencyList g.edges) cur.1).getD [])
              { s with visited := s.visited ++ [cur.1], queue := rest }
            have hvis2 := relaxFold_visited cur.1
              ((mapGet (buildAdjacencyList g.edges) cur.1).getD [])
              { s with visited := s.visited ++ [cur.1], queue := rest }
            have hpop := dijUnseen_pop g (buildAdjacencyList g.edges) s.visited
              cur.1 ((nodeDeclared_iff_mem_ids g cur.1).mp hcurd) hv
            rw [hvis2]
            dsimp only at hql ⊢
            omega
          · have hvis2 := relaxFold_visited cur.1
              ((mapGet (buildAdjacencyList g.edges) cur.1).getD [])
              { s with visited := s.visited ++ [cur.1], queue := rest }
            have hqmono := relaxFold_queue_mono cur.1
              ((mapGet (buildAdjacencyList g.edges) cur.1).getD [])
              { s with visited := s.visited ++ [cur.1], queue := rest }
            set s2 : DijkstraState :=
              ((mapGet (buildAdjacencyList g.edges) cur.1).getD []).foldl
                (relaxStep cur.1)
                { s with visited := s.visited ++ [cur.1], queue := rest }
              with hs2
            rcases hrinv with hd | ⟨p, hp, hpath⟩
            · refine Or.inl ?_
              rw [hvis2]
              exact List.mem_append_left _ hd
            · have hF : ∀ u ∈ s2.visited, ∀ v,
                  dijAdjMem (buildAdjacencyList g.edges) u v →
                  v ∈ s2.visited ∨ ∃ p2 ∈ s2.queue, p2.1 = v := by
                intro u hu v hr
                obtain ⟨w, hw⟩ := hr
                exact hstep.2 u hu (v, w) hw
              rcases avoidReach_repairD (dijAdjMem (buildAdjacencyList g.edges))
                  s.visited s2.visited (fun x => ∃ p2 ∈ s2.queue, p2.1 = x)
                  hF p.1 d hpath with
                hd2 | ⟨u2, ⟨p2, hp2, hpu⟩, path2⟩ | ⟨hu, path2⟩
              · exact Or.inl hd2
              · refine Or.inr ⟨p2, hp2, ?_⟩
                rw [hpu]
                exact path2
              · have hpm : p ∈ cur :: rest := by
                  rw [← hq]
                  exact (sortQueue_mem s.queue p).mpr hp
                rcases List.mem_cons.mp hpm with hpc | hpr
                · refine absurd ?_ hu
                  rw [hpc, hvis2]
                  dsimp only
                  exact List.mem_append_right _ (List.mem_singleton.mpr rfl)
                · exact Or.inr ⟨p, hqmono p hpr, path2⟩

/-- Running the Dijkstra loop from the initial state of `findShortestPath`
on a connected, well-formed instance visits the destination and keeps the
reconstruction chain anchored at the start. -/
theorem dijkstra_run_done (g : Graph) (c d : String)
    (hwf : ∀ e ∈ g.edges, nodeDeclared g e.fromId ∧ nodeDeclared g e.toId)
    (hc : nodeDeclared g c) (hconn : graphConnected g c d) :
    DijkDone g c d (dijkstraLoop (buildAdjacencyList g.edges) d (dijkstraFuel g)
      ⟨mapSet (g.nodes.foldl (fun m n => mapSet m n.id (⊤ : WithTop ℚ)) []) c
          ((0 : ℚ) : WithTop ℚ),
        g.nodes.foldl (fun m n => mapSet m n.id none) [], [],
        [(c, ((0 : ℚ) : WithTop ℚ))]⟩) := by
  have hcex : ∃ n ∈ g.nodes, n.id = c := (nodeMapGet_isSome_iff g.nodes c).mp hc
  have hbaseT : ∀ (n : String) (v : WithTop ℚ),
      mapGet ([] : List (String × WithTop ℚ)) n = some v → v = ⊤ := by
    intro n v hv
    simp [mapGet] at hv
  have hbaseP : ∀ (n : String) (v : Option String),
      mapGet ([] : List (String × Option String)) n = some v → v = none := by
    intro n v hv
    simp [mapGet] at hv
  have hP0val := foldSet_val (none : Option String) g.nodes [] hbaseP
  have hprev0c :
      mapGet (g.nodes.foldl
        (fun m n => mapSet m n.id (none : Option String)) []) c =
      some (none : Option String) := by
    obtain ⟨v, hv⟩ :=
      foldSet_keys (none : Option String) g.nodes [] c (Or.inl hcex)
    rw [hP0val c v hv] at hv
    exact hv
  have hD0keys : ∀ x, nodeDeclared g x →
      ∃ dv,
        mapGet (g.nodes.foldl (fun m n => mapSet m n.id (⊤ : WithTop ℚ)) []) x =
          some dv :=
    fun x hx => foldSet_keys (⊤ : WithTop ℚ) g.nodes [] x
      (Or.inl ((nodeMapGet_isSome_iff g.nodes x).mp hx))
  have hD0rev : ∀ x dv,
      mapGet (g.nodes.foldl (fun m n => mapSet m n.id (⊤ : WithTop ℚ)) []) x =
        some dv → nodeDeclared g x := by
    intro x dv h
    rcases foldSet_keysRev (⊤ : WithTop ℚ) g.nodes [] x dv h with ⟨n, hn, hid⟩ | h2
    · exact (nodeMapGet_isSome_iff g.nodes x).mpr ⟨n, hn, hid⟩
    · simp [mapGet] at h2
  have hD0val := foldSet_val (⊤ : WithTop ℚ) g.nodes [] hbaseT
  set D0 : List (String × WithTop ℚ) :=
    g.nodes.foldl (fun m n => mapSet m n.id (⊤ : WithTop ℚ)) [] with hD0def
  set P0 : List (String × Option String) :=
    g.nodes.foldl (fun m n => mapSet m n.id (none : Option String)) []
    with hP0def
  set S1 : DijkstraState :=
    ⟨mapSet D0 c ((0 : ℚ) : WithTop ℚ), P0, [c], []⟩ with hS1def
  have hcoreS1 : DijkCore g (buildAdjacencyList g.edges) c S1 := by
    refine ⟨?_, ?_, ?_, ?_, ?_, ?_, ?_, ?_, ?_, ?_, ?_⟩
    · show ([c] : List String).Nodup
      exact List.nodup_singleton c
    · intro v hv
      have hv2 : v ∈ ([c] : List String) := hv
      rw [List.mem_singleton.mp hv2]
      exact hc
    · intro x hx
      show ∃ dv, mapGet (mapSet D0 c ((0 : ℚ) : WithTop ℚ)) x = some dv
      rw [mapGet_mapSet]
      by_cases hcx : c = x
      · rw [if_pos hcx]
        exact ⟨_, rfl⟩
      · rw [if_neg hcx]
        exact hD0keys x hx
    · intro x dv hdv
      have hdv2 : mapGet (mapSet D0 c ((0 : ℚ) : WithTop ℚ)) x = some dv := hdv
      rw [mapGet_mapSet] at hdv2
      by_cases hcx : c = x
      · rw [← hcx]
        exact hc
      · rw [if_neg hcx] at hdv2
        exact hD0rev x dv hdv2
    · intro p hp
      exact absurd hp (List.not_mem_nil p)
    · intro x dv hdv hdvt
      have hdv2 : mapGet (mapSet D0 c ((0 : ℚ) : WithTop ℚ)) x = some dv := hdv
      rw [mapGet_mapSet] at hdv2
      by_cases hcx : c = x
      · refine Or.inl ?_
        show x ∈ ([c] : List String)
        rw [List.mem_singleton, ← hcx]
      · rw [if_neg hcx] at hdv2
        exact absurd (hD0val x dv hdv2) hdvt
    · intro p hp
      exact absurd hp (List.not_mem_nil p)
    · intro v m hm
      have hm2 : mapGet P0 v = some (some m) := hm
      exact Option.noConfusion (hP0val v (some m) hm2)
    · show mapGet P0 c = some none
      exact hprev0c
    · show c ∈ ([c] : List String)
      exact List.mem_singleton.mpr rfl
    · intro v hv fl acc hfl
      have hv2 : v ∈ ([c] : List String) := hv
      have hfl2 : ([c] : List String).length ≤ fl := hfl
      rw [List.length_singleton] at hfl2
      show (reconstructPath P0 fl v acc).head? = some c
      rw [List.mem_singleton.mp hv2]
      cases fl with
      | zero => exact absurd hfl2 (by omega)
      | succ f2 => simp [reconstructPath, hprev0c]
  have hstep := dijkstra_step g c c S1 hwf
    (show c ∈ ([c] : List String) from List.mem_singleton.mpr rfl)
    ⟨((0 : ℚ) : WithTop ℚ), by
        show mapGet (mapSet D0 c ((0 : ℚ) : WithTop ℚ)) c =
          some ((0 : ℚ) : WithTop ℚ)
        rw [mapGet_mapSet, if_pos rfl],
      WithTop.coe_ne_top⟩
    hcoreS1
    (by
      intro u hu hne nb hnb
      have hu2 : u ∈ ([c] : List String) := hu
      exact absurd (List.mem_singleton.mp hu2) hne)
  set s2 : DijkstraState :=
    ((mapGet (buildAdjacencyList g.edges) c).getD []).foldl (relaxStep c) S1
    with hs2def
  have hmeas : s2.queue.length +
      dijUnseen g (buildAdjacencyList g.edges) s2.visited <
      g.nodes.length + 2 * g.edges.length + 1 := by
    have hql := relaxFold_queue_len c
      ((mapGet (buildAdjacencyList g.edges) c).getD []) S1
    have hvis2 := relaxFold_visited c
      ((mapGet (buildAdjacencyList g.edges) c).getD []) S1
    rw [← hs2def] at hql hvis2
    have hSv : S1.visited = [c] := rfl
    have hSq : S1.queue.length = 0 := rfl
    have hcid : c ∈ g.nodes.map GraphNode.id :=
      (nodeDeclared_iff_mem_ids g c).mp hc
    have hpop := dijUnseen_pop g (buildAdjacencyList g.edges) [] c hcid
      (List.not_mem_nil c)
    rw [List.nil_append] at hpop
    have hle := dijUnseen_le g (buildAdjacencyList g.edges) []
    have htp := totalPairs_build g.edges
    rw [hvis2, hSv]
    rw [hSq] at hql
    omega
  have hrinv : d ∈ s2.visited ∨ ∃ p ∈ s2.queue,
      AvoidReach (dijAdjMem (buildAdjacencyList g.edges)) s2.visited p.1 d := by
    have hconv : ∀ a b, edgeAdj g a b →
        dijAdjMem (buildAdjacencyList g.edges) a b := by
      intro a b hab
      obtain ⟨e, he, hdir⟩ := hab
      rcases hdir with ⟨hf, ht⟩ | ⟨hf, ht⟩
      · refine ⟨e.weight, ?_⟩
        rw [← hf, ← ht]
        exact (buildAdj_mem_of_edge g.edges e he).1
      · refine ⟨e.weight, ?_⟩
        rw [← hf, ← ht]
        exact (buildAdj_mem_of_edge g.edges e he).2
    have hRT : Relation.ReflTransGen
        (dijAdjMem (buildAdjacencyList g.edges)) c d :=
      Relation.ReflTransGen.mono hconv hconn
    have hA0 := reflTransGen_avoid_nil
      (dijAdjMem (buildAdjacencyList g.edges)) c d hRT
    have hF : ∀ u ∈ s2.visited, ∀ v,
        dijAdjMem (buildAdjacencyList g.edges) u v →
        v ∈ s2.visited ∨ ∃ p2 ∈ s2.queue, p2.1 = v := by
      intro u hu v hr
      obtain ⟨w, hw⟩ := hr
      exact hstep.2 u hu (v, w) hw
    rcases avoidReach_repairD (dijAdjMem (buildAdjacencyList g.edges)) []
        s2.visited (fun x => ∃ p2 ∈ s2.queue, p2.1 = x) hF c d hA0 with
      hd2 | ⟨u2, ⟨p2, hp2, hpu⟩, path2⟩ | ⟨hcn, _⟩
    · exact Or.inl hd2
    · refine Or.inr ⟨p2, hp2, ?_⟩
      rw [hpu]
      exact path2
    · have hcv2 : c ∈ s2.visited := by
        rw [hs2def, relaxFold_visited]
        exact List.mem_singleton.mpr rfl
      exact absurd hcv2 hcn
  rw [show dijkstraFuel g = g.nodes.length + 2 * g.edges.length + 1 + 1 from rfl,
    dijkstraLoop_succ]
  dsimp only [sortQueue, List.foldl, insertEntry, List.nil_append]
  rw [if_neg (List.not_mem_nil c)]
  by_cases hcd : c = d
  · rw [if_pos hcd]
    exact ⟨show d ∈ ([c] : List String) from by rw [List.mem_singleton, ← hcd],
      hcoreS1.nodup, hcoreS1.vn, hcoreS1.chain⟩
  · rw [if_neg hcd]
    exact dijkstraLoop_done g c d hwf (g.nodes.length + 2 * g.edges.length + 1)
      s2 hmeas hstep.1 hstep.2 hrinv

/-- `findShortestPath` succeeds on every connected pair of declared nodes of
a well-formed graph: the queue always reaches the destination, and the
reconstruction chain then passes the start-node check. -/
theorem findShortestPath_complete (g : Graph) (c d : String)
    (hwf : ∀ e ∈ g.edges, nodeDeclared g e.fromId ∧ nodeDeclared g e.toId)
    (hc : nodeDeclared g c) (hd : nodeDeclared g d)
    (hconn : graphConnected g c d) :
    ∃ r, findShortestPath g c d = some r := by
  obtain ⟨nc, hnc⟩ := Option.isSome_iff_exists.mp hc
  obtain ⟨nd2, hnd2⟩ := Option.isSome_iff_exists.mp hd
  have hdone := dijkstra_run_done g c d hwf hc hconn
  unfold DijkDone at hdone
  obtain ⟨hdv, hnodup, hvn, hchain⟩ := hdone
  have hlenv := visited_length_le g _ hnodup hvn
  have hhead := hchain d hdv (g.nodes.length + 1) []
    (le_trans hlenv (Nat.le_succ _))
  unfold findShortestPath
  rw [hnc, hnd2]
  rw [show ((some nc).isNone || (some nd2).isNone) = false from rfl]
  rw [if_neg Bool.false_ne_true]
  dsimp only
  rw [if_pos hhead]
  exact ⟨_, rfl⟩

/-- C2.  On every connected pair of endpoints each solver returns a path,
and the returned node sequence has the requested start as its first element
and the requested end as its last element, both included (connectivity for
the weighted solver is over a well-formed graph whose requested endpoints
are declared nodes). -/
theorem solver_path_endpoints (gB : BFSGraph) (a b : String)
    (gD : Graph) (c d : String)
    (hB : bfsReachable gB a b)
    (hwf : ∀ e ∈ gD.edges, nodeDeclared gD e.fromId ∧ nodeDeclared gD e.toId)
    (hc : nodeDeclared gD c) (hd : nodeDeclared gD d)
    (hD : graphConnected gD c d) :
    (∃ rB, (findPath gB a b).1 = some rB ∧
      rB.nodes.head? = some a ∧ rB.nodes.getLast? = some b) ∧
    (∃ rD, findShortestPath gD c d = some rD ∧
      rD.path.head? = some c ∧ rD.path.getLast? = some d) := by
  constructor
  · obtain ⟨rB, hrB⟩ := findPath_complete gB a b hB
    exact ⟨rB, hrB, bfs_findPath_endpoints gB a b rB hrB⟩
  · obtain ⟨rD, hrD⟩ := findShortestPath_complete gD c d hwf hc hd hD
    exact ⟨rD, hrD, findShortestPath_endpoints gD c d rD hrD⟩

/-- Witness for C2 on the two test graphs. -/
theorem solver_path_endpoints_witness :
    (∃ rB, (findPath bfsTestGraph "X" "Y").1 = some rB ∧
      rB.nodes.head? = some "X" ∧ rB.nodes.getLast? = some "Y") ∧
    (∃ rD, findShortestPath weightedTestGraph "A" "C" = some rD ∧
      rD.path.head? = some "A" ∧ rD.path.getLast? = some "C") :=
  solver_path_endpoints bfsTestGraph "X" "Y" weightedTestGraph "A" "C"
    (Relation.ReflTransGen.single
      ⟨[("Y", ["r1"])], ["r1"], rfl, List.mem_cons_self ..⟩)
    (by
      intro e he
      rcases List.mem_cons.mp he with rfl | he2
      · exact ⟨rfl, rfl⟩
      · rcases List.mem_cons.mp he2 with rfl | he3
        · exact ⟨rfl, rfl⟩
        · exact absurd he3 (List.not_mem_nil e))
    rfl rfl
    (Relation.ReflTransGen.tail
      (Relation.ReflTransGen.single
        ⟨⟨"A", "B", 3⟩, List.mem_cons_self .., Or.inl ⟨rfl, rfl⟩⟩)
      ⟨⟨"B", "C", 4⟩, List.mem_cons_of_mem _ (List.mem_cons_self ..),
        Or.inl ⟨rfl, rfl⟩⟩)

/-! ## C3: disconnected endpoints give the no-path sentinel, not a fault -/

/-- If the destination is unreachable and every queued node is reachable
from the start, the BFS loop returns `none`. -/
theorem bfsLoop_unreachable (g : BFSGraph) (endId start : String)
    (hur : ¬bfsReachable g start endId) :
    ∀ (fuel : Nat) (q : List BFSEntry) (visited : List String),
      (∀ e ∈ q, bfsReachable g start e.node) →
      bfsLoop g endId fuel q visited = none := by
  intro fuel
  induction fuel with
  | zero => intro q visited _; simp [bfsLoop]
  | succ f ih =>
    intro q visited hq
    match q with
    | [] => simp [bfsLoop]
    | e :: rest =>
      have hend : e.node ≠ endId := by
        intro hEq
        exact hur (hEq ▸ hq e (List.mem_cons_self ..))
      simp only [bfsLoop, if_neg hend]
      cases hm : mapGet g e.node with
      | none => exact ih rest visited (fun e' he' => hq e' (List.mem_cons_of_mem _ he'))
      | some ns =>
        refine ih _ _ ?_
        intro e' he'
        rcases List.mem_append.mp he' with h' | h'
        · exact hq e' (List.mem_cons_of_mem _ h')
        · rcases pushNeighbors_mem _ _ _ _ _ _ h' with h'' | ⟨nb, hnb, hsh⟩
          · exact absurd h'' (List.not_mem_nil e')
          · have step : bfsAdj g e.node nb.1 := ⟨ns, nb.2, hm, by
              rw [← Prod.mk.eta (p := nb)] at hnb; exact hnb⟩
            have : bfsReachable g start nb.1 :=
              Relation.ReflTransGen.tail (hq e (List.mem_cons_self ..)) step
            rw [hsh]
            exact this

/-- `findPath` returns the `null` sentinel whenever the block graph has no
route between the endpoints. -/
theorem findPath_unreachable (g : BFSGraph) (a b : String)
    (h : ¬bfsReachable g a b) : (findPath g a b).1 = none := by
  unfold findPath
  by_cases hab : a = b
  · exact absurd (hab ▸ Relation.ReflTransGen.refl) h
  · rw [if_neg hab]
    by_cases hnone : (mapGet g a).isNone
    · rw [if_pos hnone]
    · rw [if_neg hnone]
      refine bfsLoop_unreachable g b a h _ _ _ ?_
      intro e he
      rw [List.mem_singleton.mp he]
      exact Relation.ReflTransGen.refl

/-- The invariant of the Dijkstra `previous` map: every recorded link joins
two nodes of one graph edge. -/
def PrevInv (g : Graph) (previous : List (String × Option String)) : Prop :=
  ∀ n m, mapGet previous n = some (some m) → edgeAdj g m n

theorem relaxStep_prevInv (g : Graph) (cur : String) (s : DijkstraState)
    (nb : String × ℚ) (hadj : edgeAdj g cur nb.1)
    (hInv : PrevInv g s.previous) : PrevInv g (relaxStep cur s nb).previous := by
  unfold relaxStep
  by_cases hv : nb.1 ∈ s.visited
  · rw [if_pos hv]; exact hInv
  · rw [if_neg hv]
    cases h1 : mapGet s.distances cur with
    | none => exact hInv
    | some dc =>
      cases h2 : mapGet s.distances nb.1 with
      | none => exact hInv
      | some dn =>
        dsimp only
        by_cases hlt : dc + (nb.2 : WithTop ℚ) < dn
        · rw [if_pos hlt]
          intro n m hm
          rw [mapGet_mapSet] at hm
          by_cases hn : nb.1 = n
          · rw [if_pos hn] at hm
            injection hm with hm
            injection hm with hm
            rw [← hm, ← hn]
            exact hadj
          · rw [if_neg hn] at hm
            exact hInv n m hm
        · rw [if_neg hlt]; exact hInv

theorem relaxFold_prevInv (g : Graph) (cur : String) :
    ∀ (l : List (String × ℚ)) (s : DijkstraState),
      (∀ nb ∈ l, edgeAdj g cur nb.1) → PrevInv g s.previous →
      PrevInv g (l.foldl (relaxStep cur) s).previous := by
  intro l
  induction l with
  | nil => intro s _ hInv; exact hInv
  | cons nb rest ih =>
    intro s hl hInv
    exact ih _ (fun nb' h' => hl nb' (List.mem_cons_of_mem _ h'))
      (relaxStep_prevInv g cur s nb (hl nb (List.mem_cons_self ..)) hInv)

theorem dijkstraLoop_prevInv (g : Graph) (endId : String)
    (hadj : ∀ (cur : String) (nb : String × ℚ),
      nb ∈ (mapGet (buildAdjacencyList g.edges) cur).getD [] → edgeAdj g cur nb.1) :
    ∀ (fuel : Nat) (s : DijkstraState), PrevInv g s.previous →
      PrevInv g (dijkstraLoop (buildAdjacencyList g.edges) endId fuel s).previous := by
  intro fuel
  induction fuel with
  | zero => intro s hInv; exact hInv
  | succ f ih =>
    intro s hInv
    unfold dijkstraLoop
    cases hq : sortQueue s.queue with
    | nil => exact hInv
    | cons cur rest =>
      dsimp only
      by_cases hv : cur.1 ∈ s.visited
      · rw [if_pos hv]
        exact ih _ hInv
      · rw [if_neg hv]
        by_cases hend : cur.1 = endId
        · rw [if_pos hend]; exact hInv
        · rw [if_neg hend]
          exact ih _ (relaxFold_prevInv g cur.1 _ _ (fun nb h => hadj cur.1 nb h) hInv)

/-- Under the link invariant, the head of a reconstructed path is connected
to the node the reconstruction started from. -/
theorem reconstructPath_reach (g : Graph) (previous : List (String × Option String))
    (hInv : PrevInv g previous) :
    ∀ (fuel : Nat) (cur : String) (acc : List String) (h : String),
      (reconstructPath previous fuel cur acc).head? = some h →
      Relation.ReflTransGen (edgeAdj g) h cur := by
  intro fuel
  induction fuel with
  | zero =>
    intro cur acc h hh
    injection hh with hh
    rw [hh]
  | succ f ih =>
    intro cur acc h hh
    cases hm : mapGet previous cur with
    | none =>
      rw [reconstructPath, hm] at hh
      injection hh with hh
      rw [hh]
    | some o =>
      cases o with
      | none =>
        rw [reconstructPath, hm] at hh
        injection hh with hh
        rw [hh]
      | some nxt =>
        rw [reconstructPath, hm] at hh
        exact Relation.ReflTransGen.tail (ih nxt (cur :: acc) h hh) (hInv cur nxt hm)

/-- The values of the initial `previous` map are all `null`. -/
theorem previous0_none (nodes : List GraphNode) :
    ∀ (m0 : List (String × Option String)),
      (∀ n v, mapGet m0 n = some v → v = none) →
      ∀ n v,
        mapGet (nodes.foldl (fun m nd => mapSet m nd.id none) m0) n = some v →
        v = none := by
  induction nodes with
  | nil => intro m0 h0 n v hv; exact h0 n v hv
  | cons nd t ih =>
    intro m0 h0 n v hv
    refine ih _ ?_ n v hv
    intro n' v' hv'
    rw [mapGet_mapSet] at hv'
    by_cases hn : nd.id = n'
    · rw [if_pos hn] at hv'
      injection hv' with hv'
      exact hv'.symm
    · rw [if_neg hn] at hv'
      exact h0 n' v' hv'

/-- `findShortestPath` returns the `null` sentinel whenever the weighted
graph has no route between the endpoints. -/
theorem findShortestPath_unreachable (g : Graph) (c d : String)
    (h : ¬graphConnected g c d) : findShortestPath g c d = none := by
  unfold findShortestPath
  split
  · rfl
  · simp only
    have hInit : PrevInv g (g.nodes.foldl (fun m nd => mapSet m nd.id none) []) := by
      intro n m hm
      have := previous0_none g.nodes [] (by intro n' v' hv'; simp [mapGet] at hv') n
        (some m) hm
      exact absurd this (by simp)
    have hadj : ∀ (cur : String) (nb : String × ℚ),
        nb ∈ (mapGet (buildAdjacencyList g.edges) cur).getD [] →
        edgeAdj g cur nb.1 := by
      intro cur nb hm
      obtain ⟨e, he, hdir, _⟩ :=
        buildAdj_mem g.edges cur nb.1 nb.2 (by rwa [Prod.mk.eta])
      exact ⟨e, he, hdir⟩
    have hLoop := dijkstraLoop_prevInv g d hadj (dijkstraFuel g)
      ⟨mapSet (g.nodes.foldl (fun m n => mapSet m n.id (⊤ : WithTop ℚ)) []) c
          ((0 : ℚ) : WithTop ℚ),
        g.nodes.foldl (fun m nd => mapSet m nd.id none) [], [],
        [(c, ((0 : ℚ) : WithTop ℚ))]⟩ hInit
    split
    · next hhead =>
      exact absurd (reconstructPath_reach g _ hLoop _ d [] c hhead) h
    · rfl

/-- C3.  When there is no route between two endpoints, both solver variants
return the `null` no-path sentinel (being total Lean functions, the embedded
solvers cannot throw). -/
theorem no_route_returns_null (gB : BFSGraph) (a b : String) (gD : Graph)
    (c d : String) (hB : ¬bfsReachable gB a b) (hD : ¬graphConnected gD c d) :
    (findPath gB a b).1 = none ∧ findShortestPath gD c d = none :=
  ⟨findPath_unreachable gB a b hB, findShortestPath_unreachable gD c d hD⟩

/-- Witness for C3: an edge-stripped block node and an edgeless weighted
graph. -/
theorem no_route_returns_null_witness :
    (findPath isolatedBfsGraph "X" "Z").1 = none ∧
      findShortestPath edgelessGraph "X" "Z" = none := by
  refine no_route_returns_null isolatedBfsGraph "X" "Z" edgelessGraph "X" "Z" ?_ ?_
  · intro h
    rcases Relation.ReflTransGen.cases_head h with h1 | ⟨y, hy, _⟩
    · exact absurd h1 (by decide)
    · obtain ⟨ns, roads, hg, hm⟩ := hy
      have : ns = [] := by
        have hx : mapGet isolatedBfsGraph "X" = some [] := by decide
        rw [hx] at hg
        injection hg with hg
        exact hg.symm
      rw [this] at hm
      exact absurd hm (List.not_mem_nil _)
  · intro h
    rcases Relation.ReflTransGen.cases_head h with h1 | ⟨y, hy, _⟩
    · exact absurd h1 (by decide)
    · obtain ⟨e, he, _⟩ := hy
      exact absurd he (List.not_mem_nil e)

/-! ## C5: the same-building short-circuit precedes the solver -/

/-- C5.  When the resolved start and end nodes are related by the
contained-by field — the start's block is the end id, the end's block is the
start id, or both carry the same truthy block id — and the endpoints differ,
`handleNavigate` reports the distinct same-building outcome and never the
routed outcome, whether or not a graph-level path exists (the solver branch
is not reached). -/
theorem same_building_short_circuit (g : Graph) (startId endId : String)
    (startNode endNode : GraphNode)
    (hs : g.nodes.find? (fun n => n.id == startId) = some startNode)
    (he : g.nodes.find? (fun n => n.id == endId) = some endNode)
    (hne : startId ≠ endId)
    (hblk : startNode.blockId = some endId ∨ endNode.blockId = some startId ∨
      (strTruthy startNode.blockId = true ∧ strTruthy endNode.blockId = true ∧
        startNode.blockId = endNode.blockId)) :
    handleNavigate g startId endId = NavOutcome.sameBuilding (floorInfoOf endNode) ∧
      ∀ r : PathResult, handleNavigate g startId endId ≠ NavOutcome.routed r := by
  have hmain :
      handleNavigate g startId endId = NavOutcome.sameBuilding (floorInfoOf endNode) := by
    unfold handleNavigate
    rw [hs, he]
    dsimp only
    rw [if_neg hne]
    rw [if_pos ?hcond]
    case hcond =>
      rcases hblk with h | h | ⟨h1, h2, h3⟩
      · simp [h]
      · simp [h]
      · simp [h1, h2, h3]
  refine ⟨hmain, fun r hr => ?_⟩
  rw [hmain] at hr
  exact NavOutcome.noConfusion hr

/-- Witness for C5: `ab4_floor2` declares `ab4` as its containing block and
the two are even joined by an edge. -/
theorem same_building_short_circuit_witness :
    handleNavigate sameBuildingGraph "ab4" "ab4_floor2" =
      NavOutcome.sameBuilding (some "2nd floor") :=
  (same_building_short_circuit sameBuildingGraph "ab4" "ab4_floor2"
    ⟨"ab4", "Academic Block 4", 0, 0, none, none⟩
    ⟨"ab4_floor2", "AB4 Research Wing", 1, 1, some "ab4", some "2nd floor"⟩
    (by decide) (by decide) (by decide)
    (Or.inr (Or.inl rfl))).1

/-! ## C7: an exact coordinate match wins the nearest-node scan -/

/-- Once the scan's accumulator is the exact-match result with distance 0,
no later entry (the node itself again, or one at positive distance)
replaces it. -/
theorem nearestScan_keep (dist : ℚ → ℚ → ℚ → ℚ → ℚ) (nid : String)
    (n : CampusNode) (hself : dist n.lat n.lng n.lat n.lng = 0) :
    ∀ l : List (String × CampusNode),
      (∀ e ∈ l, e = (nid, n) ∨ 0 < dist n.lat n.lng e.2.lat e.2.lng) →
      l.foldl (nearestStep dist n.lat n.lng)
          ⟨some nid, some n, ((0 : ℚ) : WithTop ℚ)⟩ =
        ⟨some nid, some n, ((0 : ℚ) : WithTop ℚ)⟩ := by
  intro l
  induction l with
  | nil => intro _; rfl
  | cons e t ih =>
    intro hl
    have hstep :
        nearestStep dist n.lat n.lng ⟨some nid, some n, ((0 : ℚ) : WithTop ℚ)⟩ e =
          ⟨some nid, some n, ((0 : ℚ) : WithTop ℚ)⟩ := by
      unfold nearestStep
      rw [if_neg]
      dsimp only
      rcases hl e (List.mem_cons_self ..) with h | h
      · rw [h]
        dsimp only
        rw [hself]
        exact lt_irrefl _
      · rw [WithTop.coe_lt_coe]
        exact not_lt_of_gt h
    rw [List.foldl_cons, hstep]
    exact ih (fun e' he' => hl e' (List.mem_cons_of_mem _ he'))

/-- Scanning entries that are either the exact match or at positive distance
leaves the accumulator the exact-match result, a `⊤` distance, or a positive
distance. -/
theorem nearestScan_pgood (dist : ℚ → ℚ → ℚ → ℚ → ℚ) (nid : String)
    (n : CampusNode) (hself : dist n.lat n.lng n.lat n.lng = 0) :
    ∀ (l : List (String × CampusNode)) (acc : NearestResult),
      (∀ e ∈ l, e = (nid, n) ∨ 0 < dist n.lat n.lng e.2.lat e.2.lng) →
      (acc = ⟨some nid, some n, ((0 : ℚ) : WithTop ℚ)⟩ ∨ acc.distance = ⊤ ∨
        ∃ q : ℚ, acc.distance = (q : WithTop ℚ) ∧ 0 < q) →
      (l.foldl (nearestStep dist n.lat n.lng) acc =
          ⟨some nid, some n, ((0 : ℚ) : WithTop ℚ)⟩ ∨
        (l.foldl (nearestStep dist n.lat n.lng) acc).distance = ⊤ ∨
        ∃ q : ℚ,
          (l.foldl (nearestStep dist n.lat n.lng) acc).distance = (q : WithTop ℚ) ∧
            0 < q) := by
  intro l
  induction l with
  | nil => intro acc _ hacc; exact hacc
  | cons e t ih =>
    intro acc hl hacc
    rw [List.foldl_cons]
    refine ih _ (fun e' he' => hl e' (List.mem_cons_of_mem _ he')) ?_
    rcases hl e (List.mem_cons_self ..) with h | h
    · rcases hacc with hacc | hacc
      · left
        rw [hacc, h]
        unfold nearestStep
        rw [if_neg]
        dsimp only
        rw [hself]
        exact lt_irrefl _
      · unfold nearestStep
        split
        · left
          rw [h]
          dsimp only
          rw [hself]
        · right; exact hacc
    · unfold nearestStep
      split
      · right; right
        exact ⟨dist n.lat n.lng e.2.lat e.2.lng, rfl, h⟩
      · rcases hacc with hacc | hacc
        · exact Or.inl hacc
        · exact Or.inr hacc

/-- C7.  For a node `N` of the campus list whose self-distance under the
metric is zero and whose distance to every other entry is positive (no
duplicated coordinates), `findNearestNode(N.lat, N.lng)` returns `N`'s id,
`N` itself and distance 0. -/
theorem findNearestNode_exact_match (dist : ℚ → ℚ → ℚ → ℚ → ℚ)
    (nodes : List (String × CampusNode)) (nid : String) (n : CampusNode)
    (hmem : (nid, n) ∈ nodes)
    (hself : dist n.lat n.lng n.lat n.lng = 0)
    (hpos : ∀ e ∈ nodes, e ≠ (nid, n) → 0 < dist n.lat n.lng e.2.lat e.2.lng) :
    findNearestNode dist nodes n.lat n.lng =
      ⟨some nid, some n, ((0 : ℚ) : WithTop ℚ)⟩ := by
  obtain ⟨s, t, rfl⟩ := List.append_of_mem hmem
  have hcase : ∀ e ∈ s ++ (nid, n) :: t,
      e = (nid, n) ∨ 0 < dist n.lat n.lng e.2.lat e.2.lng := by
    intro e he
    by_cases hx : e = (nid, n)
    · exact Or.inl hx
    · exact Or.inr (hpos e he hx)
  unfold findNearestNode
  rw [List.foldl_append, List.foldl_cons]
  have hs := nearestScan_pgood dist nid n hself s ⟨none, none, ⊤⟩
    (fun e he => hcase e (List.mem_append_left _ he)) (Or.inr (Or.inl rfl))
  have hmid :
      nearestStep dist n.lat n.lng (s.foldl (nearestStep dist n.lat n.lng)
          ⟨none, none, ⊤⟩) (nid, n) =
        ⟨some nid, some n, ((0 : ℚ) : WithTop ℚ)⟩ := by
    set acc := s.foldl (nearestStep dist n.lat n.lng) ⟨none, none, ⊤⟩ with hacc
    rcases hs with hs | hs | ⟨q, hq, hq0⟩
    · rw [hs]
      unfold nearestStep
      rw [if_neg]
      dsimp only
      rw [hself]
      exact lt_irrefl _
    · unfold nearestStep
      rw [if_pos]
      · dsimp only
        rw [hself]
      · rw [hs]
        dsimp only
        exact WithTop.coe_lt_top _
    · unfold nearestStep
      rw [if_pos]
      · dsimp only
        rw [hself]
      · rw [hq]
        dsimp only
        rw [hself, WithTop.coe_lt_coe]
        exact hq0
  rw [hmid]
  exact nearestScan_keep dist nid n hself t
    (fun e he => hcase e (List.mem_append_right _ (List.mem_cons_of_mem _ he)))

/-- Witness for C7: the exact coordinates of `alpha` in the two-node list
under the discrete metric. -/
theorem findNearestNode_exact_match_witness :
    findNearestNode exactDist nearestTestNodes 0 0 =
      ⟨some "alpha", some ⟨"Alpha Block", 0, 0, "block_alpha", "academic"⟩,
        ((0 : ℚ) : WithTop ℚ)⟩ :=
  findNearestNode_exact_match exactDist nearestTestNodes "alpha"
    ⟨"Alpha Block", 0, 0, "block_alpha", "academic"⟩
    (by decide) (by decide) (by decide)

end CampusNav
